import Mathlib

/-!
# Verification of the `visualize_bench` layout engine

A shallow embedding, in Lean 4, of the core of `scripts/visualize_bench.py`:
the circuit graph model (`CircuitParser`), the memoized depth analysis
(`compute_node_depths`), the critical-path report parser
(`NhsstaOutputParser`), the highlight-set construction
(`build_highlight_sets`), the layered node placement and the edge
routing-channel selection inside `visualize_overview`.

Conventions of the embedding:
* Python dictionaries become association lists with dict update semantics
  (`insertAssoc`: replace in place, append when absent); iteration order is
  the dictionary's insertion order, as in Python 3.7+.
* Python sets become duplicate-free lists (`setInsert`); only membership and
  cardinality of these sets are used by the program.
* Python floats become rationals (`ℚ`).  Every coordinate produced by the
  layout is a small decimal and every comparison made by the program has a
  margin far above float rounding error, so the rational model decides every
  test the same way the float program does.
* The unbounded Python recursion in `compute_node_depths` becomes a
  fuel-indexed function; sufficiency of the chosen fuel is proved
  (`compute_node_depths_isSome`), which is exactly the program's
  termination argument.
* File reading becomes a function of `Option (List String)` (`none` models
  `FileNotFoundError`), and `sys.exit` / an uncaught `ValueError` become an
  `Except` error value.
-/

namespace VB

/-- First-match lookup in an association list (association lists model
Python dicts; keys are kept unique by `insertAssoc`). -/
def lookupS {α : Type} (n : String) : List (String × α) → Option α
  | [] => none
  | (k, v) :: rest => if k = n then some v else lookupS n rest

/-- Python dict update `d[k] = v`: replace the value in place when the key
is present, append a fresh binding otherwise. -/
def insertAssoc {α : Type} (l : List (String × α)) (k : String) (v : α) :
    List (String × α) :=
  match l with
  | [] => [(k, v)]
  | (k0, v0) :: rest => if k0 = k then (k, v) :: rest else (k0, v0) :: insertAssoc rest k v

/-- Python `set.add`: a set modeled as a duplicate-free list in insertion
order. -/
def setInsert (l : List String) (x : String) : List String :=
  if x ∈ l then l else l ++ [x]

/-- One parsed `.bench` declaration, the outcome of the regular-expression
dispatch in `CircuitParser.parse_file` (the line-level text parsing itself
is an external collaborator in the spec).  A malformed line matches no
branch and produces no declaration. -/
inductive Decl where
  | input (name : String)
  | output (name : String)
  | dff (out inp : String)
  | gate (out gtype : String) (inps : List String)

/-- The state built by `CircuitParser.__init__`. -/
structure Circuit where
  inputs : List String := []
  outputs : List String := []
  dffs : List (String × String) := []
  gates : List (String × String × List String) := []
  all_nodes : List String := []

/-- The effect of one declaration on the parser state, mirroring the four
regex branches of `CircuitParser.parse_file`. -/
def applyDecl (c : Circuit) : Decl → Circuit
  | .input n =>
      { c with inputs := setInsert c.inputs n, all_nodes := setInsert c.all_nodes n }
  | .output n =>
      { c with outputs := setInsert c.outputs n, all_nodes := setInsert c.all_nodes n }
  | .dff o i =>
      { c with dffs := insertAssoc c.dffs o i,
               all_nodes := setInsert (setInsert c.all_nodes o) i }
  | .gate o t ins =>
      { c with gates := insertAssoc c.gates o (t, ins),
               all_nodes := ins.foldl setInsert (setInsert c.all_nodes o) }

/-- `CircuitParser.parse_file` over an already-tokenized declaration list. -/
def buildCircuit (decls : List Decl) : Circuit :=
  decls.foldl applyDecl {}

/-- `CircuitParser.get_gate_type`: classification with priority
INPUT > OUTPUT > DFF > gate subtype > UNKNOWN. -/
def get_gate_type (c : Circuit) (node : String) : String :=
  if node ∈ c.inputs then "INPUT"
  else if node ∈ c.outputs then "OUTPUT"
  else if (lookupS node c.dffs).isSome then "DFF"
  else
    match lookupS node c.gates with
    | some tv => tv.1
    | none => "UNKNOWN"

/-- `CircuitParser.get_inputs`: the signals feeding a node (a DFF's single
data input, a gate's input list, empty otherwise). -/
def get_inputs (c : Circuit) (node : String) : List String :=
  match lookupS node c.dffs with
  | some i => [i]
  | none =>
    match lookupS node c.gates with
    | some tv => tv.2
    | none => []

/-! ## Depth analysis (`compute_node_depths`) -/

/-- The memo dictionary of `compute_node_depths`. -/
abbrev Memo := List (String × Nat)

/-- `max` of a list of naturals (for nonempty lists of positive entries this
is Python's `max`). -/
def listMax (l : List Nat) : Nat := l.foldr max 0

mutual

/-- The inner `dfs` of `compute_node_depths`, made fuel-indexed: `none`
models running out of fuel (Python has no fuel; the fuel chosen by
`runDepths` is proved sufficient).  The memo is threaded explicitly; the
`visiting` set is the recursion stack. -/
def dfs (c : Circuit) (fuel : Nat) (visiting : List String) (memo : Memo)
    (node : String) : Option (Nat × Memo) :=
  match fuel with
  | 0 => none
  | fuel + 1 =>
    match lookupS node memo with
    | some d => some (d, memo)
    | none =>
      if node ∈ visiting then some (0, memo)
      else
        match get_inputs c node with
        | [] => some (0, memo ++ [(node, 0)])
        | i :: is =>
          match dfsMany c fuel (node :: visiting) memo (i :: is) with
          | none => none
          | some (ds, memo1) =>
            some (listMax (ds.map (· + 1)), memo1 ++ [(node, listMax (ds.map (· + 1)))])
termination_by (fuel, 0)

/-- Sequential evaluation of `dfs` over an input list (the generator inside
`max(dfs(inp) + 1 for inp in inputs)`), returning the raw `dfs` results. -/
def dfsMany (c : Circuit) (fuel : Nat) (visiting : List String) (memo : Memo) :
    List String → Option (List Nat × Memo)
  | [] => some ([], memo)
  | n :: rest =>
    match dfs c fuel visiting memo n with
    | none => none
    | some (d, memo1) =>
      match dfsMany c fuel visiting memo1 rest with
      | none => none
      | some (ds, memo2) => some (d :: ds, memo2)
termination_by ns => (fuel, ns.length + 1)

end

/-- The top-level loop `for node in circuit.all_nodes: dfs(node)`; the
`visiting` set is empty at the start of each top-level call because every
`add` is paired with a `remove` before `dfs` returns. -/
def runDepths (c : Circuit) (fuel : Nat) : List String → Memo → Option Memo
  | [], memo => some memo
  | n :: rest, memo =>
    match dfs c fuel [] memo n with
    | none => none
    | some (_, memo1) => runDepths c fuel rest memo1

/-- Fuel sufficient for the traversal: the recursion nests at most once per
distinct node (the `visiting` marker blocks deeper re-entry). -/
def fuelBound (c : Circuit) : Nat := c.all_nodes.length + 1

/-- `compute_node_depths(circuit)`. -/
def compute_node_depths (c : Circuit) : Option Memo :=
  runDepths c (fuelBound c) c.all_nodes []

/-- Total version of the depth map used by the layout (`runDepths` is proved
to return `some` for every circuit built from declarations). -/
def nodeDepths (c : Circuit) : Memo :=
  (compute_node_depths c).getD []

/-! ## Well-formedness of circuits built from declaration lists -/

/-- The structural facts about `CircuitParser` state that every declaration
list establishes: every signal mentioned anywhere is in `all_nodes`, and
`all_nodes` has no duplicates (it models a Python set). -/
structure CircuitWF (c : Circuit) : Prop where
  nodup : c.all_nodes.Nodup
  inputs_sub : ∀ n ∈ c.inputs, n ∈ c.all_nodes
  outputs_sub : ∀ n ∈ c.outputs, n ∈ c.all_nodes
  dffs_sub : ∀ p ∈ c.dffs, p.1 ∈ c.all_nodes ∧ p.2 ∈ c.all_nodes
  gates_sub : ∀ p ∈ c.gates, p.1 ∈ c.all_nodes ∧ ∀ m ∈ p.2.2, m ∈ c.all_nodes

/-! ## Termination of the depth traversal (fuel sufficiency) -/

/-- How many graph nodes are not yet on the recursion stack: the measure
that the `visiting` marker makes strictly decrease along nested calls. -/
def remaining (U visiting : List String) : Nat :=
  (U.toFinset \ visiting.toFinset).card

/-- `memo'` extends `memo` by entries whose keys are all off the current
recursion stack (Python only ever assigns `memo[node]` for a `node` that is
not in `visiting`). -/
def MemoExt (visiting : List String) (memo memo' : Memo) : Prop :=
  ∃ ext, memo' = memo ++ ext ∧ ∀ p ∈ ext, p.1 ∉ visiting

/-- The contract each memo entry satisfies: depth 0 for empty fan-in,
otherwise `1 +` max of contributions, a contribution being the memoized
depth of the predecessor — or 0 for a predecessor that was re-encountered
while still being visited. -/
def MemoInv (c : Circuit) (memo : Memo) : Prop :=
  ∀ p ∈ memo,
    (get_inputs c p.1 = [] → p.2 = 0) ∧
    (get_inputs c p.1 ≠ [] → ∃ contribs : List Nat,
      contribs.length = (get_inputs c p.1).length ∧
      p.2 = listMax (contribs.map (· + 1)) ∧
      ∀ q ∈ contribs.zip (get_inputs c p.1), q.1 = 0 ∨ lookupS q.2 memo = some q.1)

/-! ## Critical-path report parsing (`NhsstaOutputParser`) -/

/-- One critical path parsed from the nhssta report
(`CriticalPathData` in the source, with the delay as a rational). -/
structure CriticalPathData where
  index : Nat
  delay : ℚ
  nodes : List String
deriving Repr, DecidableEq

/-- Maximal matching prefix for a `+`-quantified character class: `none`
when the class matches zero characters. -/
def takeWhile1 (p : Char → Bool) (cs : List Char) : Option (List Char × List Char) :=
  let tk := cs.takeWhile p
  if tk.isEmpty then none else some (tk, cs.drop tk.length)

/-- Consume an exact literal prefix. -/
def dropLit : List Char → List Char → Option (List Char)
  | [], cs => some cs
  | _ :: _, [] => none
  | p :: ps, ch :: cs => if ch = p then dropLit ps cs else none

/-- The character class `[0-9.eE+-]` of the delay group. -/
def isFloatChar (ch : Char) : Bool :=
  ch.isDigit || ch = '.' || ch = 'e' || ch = 'E' || ch = '+' || ch = '-'

/-- `re.match` of `PATH_HEADER_RE = '# Path (\d+)\s+\(delay:\s+([0-9.eE+-]+)\)'`:
anchored at the start of the line, trailing characters ignored, returning
the two capture groups.  The quantified pieces are all maximal-munch with no
backtracking possible, because each following literal is outside the
preceding class. -/
def headerMatch (line : String) : Option (String × String) := do
  let cs := line.toList
  let cs ← dropLit "# Path ".toList cs
  let (g1, cs) ← takeWhile1 Char.isDigit cs
  let (_, cs) ← takeWhile1 Char.isWhitespace cs
  let cs ← dropLit "(delay:".toList cs
  let (_, cs) ← takeWhile1 Char.isWhitespace cs
  let (g2, cs) ← takeWhile1 isFloatChar cs
  let _ ← dropLit ")".toList cs
  return (String.mk g1, String.mk g2)

/-- Value of a digit string (Python `int` on a `\d+` match never fails). -/
def natOfDigits (cs : List Char) : Nat :=
  cs.foldl (fun a ch => a * 10 + (ch.toNat - 48)) 0

/-- Maximal digit prefix: value, number of digits, rest. -/
def digitsVal (cs : List Char) : Nat × Nat × List Char :=
  let ds := cs.takeWhile Char.isDigit
  (natOfDigits ds, ds.length, cs.drop ds.length)

/-- Python `float()` on a string drawn from `[0-9.eE+-]+`, as an exact
rational: optional sign, mantissa with at least one digit, optional
`e`/`E` exponent with at least one digit; anything else raises `ValueError`
(`none`).  (IEEE rounding of the resulting value is not modeled; parsed
delays are only stored and compared for equality on small decimals.) -/
def pyFloat? (s : String) : Option ℚ := do
  let cs := s.toList
  let (sgn, cs) : ℚ × List Char :=
    match cs with
    | '+' :: rest => (1, rest)
    | '-' :: rest => (-1, rest)
    | _ => (1, cs)
  let (iv, ic, cs) := digitsVal cs
  let (fv, fc, cs) ←
    match cs with
    | '.' :: rest =>
      let (fv, fc, rest2) := digitsVal rest
      some (fv, fc, rest2)
    | _ => some (0, 0, cs)
  if ic + fc = 0 then none
  else
    let mant : ℚ := (iv : ℚ) + (fv : ℚ) / (10 : ℚ) ^ fc
    let (ex, cs) ← (
      match cs with
      | 'e' :: rest | 'E' :: rest =>
        let (esgn, rest2) : ℤ × List Char :=
          match rest with
          | '+' :: r => (1, r)
          | '-' :: r => (-1, r)
          | _ => (1, rest)
        let (ev, ec, rest3) := digitsVal rest2
        if ec = 0 then none else some ((esgn * (ev : ℤ), rest3) : ℤ × List Char)
      | _ => some ((0 : ℤ), cs))
    if cs.isEmpty then some (sgn * mant * (10 : ℚ) ^ ex) else none

/-- First whitespace-delimited token of a stripped nonempty line
(`line.split()[0]`). -/
def firstToken (line : String) : String :=
  String.mk (line.toList.takeWhile (fun ch => !ch.isWhitespace))

/-- Python `str.strip()` (whitespace from both ends), written over the
character list so that it evaluates by kernel reduction. -/
def pyStrip (s : String) : String :=
  String.mk (((s.toList.dropWhile Char.isWhitespace).reverse.dropWhile
    Char.isWhitespace).reverse)

/-- Python `str.startswith(pre)`. -/
def pyStartsWith (line pre : String) : Bool :=
  pre.toList.isPrefixOf line.toList

/-- The loop body of `NhsstaOutputParser._parse_file`: state is
(emitted paths, open path, reading-nodes flag).  `Except.error` models the
uncaught `ValueError` that `float()` raises on a header whose delay group
matches the regex but is not a parsable number. -/
def parseLine :
    List CriticalPathData × Option CriticalPathData × Bool → String →
      Except Unit (List CriticalPathData × Option CriticalPathData × Bool)
  | (paths, cur, reading), raw =>
    let line := pyStrip raw
    if line = "" then .ok (paths, cur, reading)
    else
      match headerMatch line with
      | some g =>
        match pyFloat? g.2 with
        | none => .error ()
        | some delay =>
          let paths1 := match cur with
            | some p => paths ++ [p]
            | none => paths
          .ok (paths1, some ⟨natOfDigits g.1.toList, delay, []⟩, false)
      | none =>
        match cur with
        | none => .ok (paths, cur, reading)
        | some p =>
          if pyStartsWith line "#node" then .ok (paths, cur, reading)
          else if pyStartsWith line "#-" then
            (if reading then .ok (paths ++ [p], none, false)
             else .ok (paths, some p, true))
          else if reading then
            .ok (paths, some { p with nodes := p.nodes ++ [firstToken line] }, reading)
          else .ok (paths, cur, reading)

/-- `NhsstaOutputParser._parse_file` over the lines of an existing file.
The final `current_path not in self.paths` test compares by object identity
and an unemitted open path is never in the list, so end of input always
flushes the open path. -/
def parseReportLines (lines : List String) : Except Unit (List CriticalPathData) := do
  let st ← lines.foldlM parseLine ([], none, false)
  match st.2.1 with
  | some p => return st.1 ++ [p]
  | none => return st.1

/-- How a run that consumes a report file can fail:
`exitFailure` is the reported `sys.exit(1)` on a missing file, and
`uncaughtValueError` an exception escaping the parser. -/
inductive RunError where
  | exitFailure (code : Nat) (msg : String)
  | uncaughtValueError
deriving Repr, DecidableEq

deriving instance DecidableEq for Except

/-- `load_paths_from_file`: `none` contents model a missing file
(`FileNotFoundError`), which is reported and exits with status 1; paths with
empty node lists are dropped. -/
def load_paths_from_file (filepath : String) (contents : Option (List String)) :
    Except RunError (List (List String)) :=
  match contents with
  | none => .error (.exitFailure 1 ("Error: nhssta output file " ++ filepath ++ " not found"))
  | some lines =>
    match parseReportLines lines with
    | .error _ => .error .uncaughtValueError
    | .ok ps => .ok ((ps.filter (fun p => !p.nodes.isEmpty)).map (fun p => p.nodes))

/-! ## Highlight sets (`build_highlight_sets`) -/

/-- The consecutive ordered pairs `(p[i], p[i+1])` of one path. -/
def consecPairs (p : List String) : List (String × String) := p.zip p.tail

/-- One iteration of the `build_highlight_sets` loop: an empty sequence is
skipped, otherwise the path is appended to the normalized list, its nodes
are unioned into the node set and its consecutive pairs into the edge set. -/
def bhsStep (acc : List (List String) × Finset String × Finset (String × String))
    (path_nodes : List String) :
    List (List String) × Finset String × Finset (String × String) :=
  if path_nodes.isEmpty then acc
  else
    (acc.1 ++ [path_nodes], acc.2.1 ∪ path_nodes.toFinset,
      acc.2.2 ∪ (consecPairs path_nodes).toFinset)

/-- `build_highlight_sets`: normalized (nonempty) paths, the highlighted
node set, the highlighted ordered-pair edge set.  The two Python sets are
modeled as `Finset`s. -/
def build_highlight_sets (paths : List (List String)) :
    List (List String) × Finset String × Finset (String × String) :=
  paths.foldl bhsStep ([], ∅, ∅)

/-- The two-block report of the round-trip scenario (separator lines begin
with `#-`). -/
def reportC3 : List String :=
  ["# Path 0 (delay: 1.5)", "#----------------", "nodeA", "nodeB", "#----------------",
   "# Path 1 (delay: 2.25)", "#----------------", "nodeC", "#----------------"]

/-- A line is harmless for the parser when it is not a path header, or is a
path header whose delay group is a parsable number. -/
def headerDelayParses (l : String) : Bool :=
  match headerMatch (pyStrip l) with
  | some g => (pyFloat? g.2).isSome
  | none => true

/-- Whether an `Except` computation succeeded. -/
def exceptOk {ε α : Type} : Except ε α → Bool
  | .ok _ => true
  | .error _ => false

/-! ## Layered layout (`visualize_overview`, lines 260-351) -/

/-- The directed edges of the NetworkX graph: each gate input feeds the gate
output, and each DFF data input feeds the DFF (gate edges first, in
dictionary order, like the two loops in the source). -/
def circuitEdges (c : Circuit) : List (String × String) :=
  (c.gates.foldl (fun acc g => acc ++ g.2.2.map (fun inp => (inp, g.1))) []) ++
    c.dffs.map (fun p => (p.2, p.1))

/-- The node set of the NetworkX graph: `all_nodes`, plus any edge endpoint
(`add_edge` inserts endpoints that are not yet nodes). -/
def gNodes (c : Circuit) : List String :=
  (circuitEdges c).foldl (fun acc e => setInsert (setInsert acc e.1) e.2) c.all_nodes

/-- `max(depths.values())` guarded by `if depths:` (0 for an empty dict). -/
def maxValues (m : Memo) : Nat := listMax (m.map Prod.snd)

/-- The depth dictionary after `depths[output] = max_depth + 1` has been
applied to every declared output (`max_depth` is read once, before the
loop). -/
def depthsAfterOverride (c : Circuit) : Memo :=
  c.outputs.foldl (fun acc o => insertAssoc acc o (maxValues (nodeDepths c) + 1))
    (nodeDepths c)

/-- `max_depth` recomputed after the output override. -/
def maxDepthAfter (c : Circuit) : Nat := maxValues (depthsAfterOverride c)

/-- `defaultdict(list)` append: add `n` to the bucket of key `d`, creating
the bucket at the end in first-touch order. -/
def addToGroup (gs : List (Nat × List String)) (d : Nat) (n : String) :
    List (Nat × List String) :=
  match gs with
  | [] => [(d, [n])]
  | (d0, ns) :: rest =>
    if d0 = d then (d0, ns ++ [n]) :: rest else (d0, ns) :: addToGroup rest d n

/-- One step of the partition loop: a node classified `DFF` goes to
`depth_to_dffs`, every other node to `depth_to_nodes`. -/
def groupStep (c : Circuit) (acc : List (Nat × List String) × List (Nat × List String))
    (p : String × Nat) : List (Nat × List String) × List (Nat × List String) :=
  if get_gate_type c p.1 = "DFF" then (acc.1, addToGroup acc.2 p.2 p.1)
  else (addToGroup acc.1 p.2 p.1, acc.2)

/-- Partition of the depth dictionary into `depth_to_nodes` (non-flip-flop)
and `depth_to_dffs` (nodes classified `DFF`), in iteration order. -/
def groupNodes (c : Circuit) : List (Nat × List String) × List (Nat × List String) :=
  (depthsAfterOverride c).foldl (groupStep c) ([], [])

/-- All nodes collected over the buckets of a grouping. -/
def groupMembers (gs : List (Nat × List String)) : List String :=
  (gs.map Prod.snd).join

/-- `n` lies in the bucket of depth `d`. -/
def PairIn (gs : List (Nat × List String)) (d : Nat) (n : String) : Prop :=
  ∃ ns, (d, ns) ∈ gs ∧ n ∈ ns

/-- `depth_to_nodes`. -/
def depthToNodes (c : Circuit) : List (Nat × List String) := (groupNodes c).1

/-- `depth_to_dffs`. -/
def depthToDffs (c : Circuit) : List (Nat × List String) := (groupNodes c).2

/-- `depth_to_nodes.get(d, [])`. -/
def lookupGroup (gs : List (Nat × List String)) (d : Nat) : List String :=
  match gs with
  | [] => []
  | (d0, ns) :: rest => if d0 = d then ns else lookupGroup rest d

/-- `max_nodes_in_layer`: the largest non-DFF layer population over the
union of the two key sets, with `default=1` when there are no layers at
all. -/
def maxNodesInLayer (c : Circuit) : Nat :=
  match (depthToNodes c).map Prod.fst ++ (depthToDffs c).map Prod.fst with
  | [] => 1
  | allDepths => listMax (allDepths.map (fun d => (lookupGroup (depthToNodes c) d).length))

/-- Insertion sort, used to model Python's `sorted` (all sort keys in the
program are distinct, so stability is irrelevant). -/
def insertSorted {α : Type} (le : α → α → Bool) (a : α) : List α → List α
  | [] => [a]
  | b :: rest => if le a b then a :: b :: rest else b :: insertSorted le a rest

/-- Sort a list by the boolean relation `le`. -/
def sortBy {α : Type} (le : α → α → Bool) (l : List α) : List α :=
  l.foldr (insertSorted le) []

/-- Code-point comparison of identifiers, Python's `str` ordering. -/
def strLe (a b : String) : Bool := decide (a ≤ b)

/-- Python tuple comparison on `(depth, identifier)` sort keys. -/
def depthNameLe (p q : Nat × String) : Bool :=
  decide (p.1 < q.1 ∨ (p.1 = q.1 ∧ p.2 ≤ q.2))

/-- A position map (Python dict `pos`; every node is inserted once). -/
abbrev Pos := List (String × ℚ × ℚ)

/-- Per-node x jitter `(node_counter % 5 - 2) * node_x_offset`. -/
def jitterX (counter : Nat) : ℚ := ((counter % 5 : Nat) - 2 : ℚ) * (2/5)

/-- Per-node y jitter `(node_counter % 3 - 1) * node_y_offset`. -/
def jitterY (counter : Nat) : ℚ := ((counter % 3 : Nat) - 1 : ℚ) * (3/10)

/-- Placement of one non-DFF layer: nodes sorted by identifier, centered
vertically, `x = depth * x_unit + x_off`, with the global node counter
starting at `c0` for this layer. -/
def placeLayer (d : Nat) (ns : List String) (c0 : Nat) : Pos :=
  let sorted := sortBy strLe ns
  sorted.enum.map (fun p =>
    (p.2, ((d : ℚ) * 5 + jitterX (c0 + p.1),
      -(((p.1 : ℚ) - ((sorted.length : ℚ) - 1) / 2)) * 3 + jitterY (c0 + p.1))))

/-- The `depth_to_nodes` placement loop, threading the global node
counter. -/
def placeRegular : List (Nat × List String) → Nat → Pos
  | [], _ => []
  | (d, ns) :: rest, c0 => placeLayer d ns c0 ++ placeRegular rest (c0 + ns.length)

/-- `all_dffs`, collected from `depth_to_dffs` and sorted by
`(depth, identifier)`. -/
def allDffsSorted (dd : List (Nat × List String)) : List (Nat × String) :=
  sortBy depthNameLe (dd.foldl (fun acc p => acc ++ p.2.map (fun n => (p.1, n))) [])

/-- `y_bottom = -max_nodes_in_layer * y_unit / 2 - y_unit * 3.0`. -/
def yBottom (c : Circuit) : ℚ := -(maxNodesInLayer c : ℚ) * 3 / 2 - 3 * 3

/-- The DFF placement loop: the `dff_idx`-th flip-flop (0-indexed, in sorted
order) is placed at `x = depth * x_unit + (dff_idx % 7 - 3) * dff_x_offset`
and the strictly decreasing `y = y_bottom - dff_idx * dff_y_spacing`. -/
def placeDffs (c : Circuit) (dffs : List (Nat × String)) : Pos :=
  dffs.enum.map (fun p =>
    (p.2.2, ((p.2.1 : ℚ) * 5 + ((p.1 % 7 : Nat) - 3 : ℚ) * (3/2),
      yBottom c - (p.1 : ℚ) * 6)))

/-- The fallback loop: any graph node still unplaced gets `(0, -idx * y_unit)`
with `idx` its index in the sorted node list. -/
def addFallback (pos : Pos) (gnodes : List String) : Pos :=
  (sortBy strLe gnodes).enum.foldl
    (fun acc p =>
      if (lookupS p.2 acc).isSome then acc else acc ++ [(p.2, ((0 : ℚ), -(p.1 : ℚ) * 3))])
    pos

/-- The positions assigned by the two placement loops (regular layers
first, then flip-flops), before the fallback pass. -/
def basePositions (c : Circuit) : Pos :=
  placeRegular (depthToNodes c) 0 ++ placeDffs c (allDffsSorted (depthToDffs c))

/-- The complete position assignment of `visualize_overview`. -/
def layoutPositions (c : Circuit) : Pos :=
  addFallback (basePositions c) (gNodes c)

/-! ## Edge routing channel (`visualize_overview`, lines 497-533) -/

/-- Python `abs`. -/
def pyAbs (q : ℚ) : ℚ := if q < 0 then -q else q

/-- Python `round` (banker's rounding, ties to even). -/
def pyRound (q : ℚ) : ℤ :=
  let f := ⌊q⌋
  let r := q - f
  if r < 1/2 then f
  else if 1/2 < r then f + 1
  else if f % 2 = 0 then f else f + 1

/-- The direct-segment test: near-equal y (tolerance 0.1) and adjacent
depth layers (`round(x / x_unit)`); otherwise the edge is routed as a
multi-segment path through a horizontal channel. -/
def isDirectEdge (x0 y0 x1 y1 : ℚ) : Bool :=
  pyAbs (y0 - y1) < 1/10 && (pyRound (x0 / 5) - pyRound (x1 / 5)).natAbs ≤ 1

/-- `node_margin = y_unit * 0.4`. -/
def nodeMargin : ℚ := 3 * (2/5)

/-- The y-coordinates of nodes strictly between the source x and the target
x (in that order: `x_start < node_x < x_end`), excluding the two
endpoints, in position-map order. -/
def nodesInPath (pos : Pos) (u v : String) (x_start x_end : ℚ) : List ℚ :=
  pos.foldl
    (fun acc p =>
      if x_start < p.2.1 ∧ p.2.1 < x_end ∧ p.1 ≠ u ∧ p.1 ≠ v then acc ++ [p.2.2] else acc)
    []

/-- Python `max` of a nonempty list of rationals. -/
def listMaxQ : List ℚ → ℚ
  | [] => 0
  | x :: xs => xs.foldl max x

/-- Python `min` of a nonempty list of rationals. -/
def listMinQ : List ℚ → ℚ
  | [] => 0
  | x :: xs => xs.foldl min x

/-- `route_channel_y` selection for a multi-segment edge `(u, v)` with
source `(x_start, y_start)`, target `(x_end, y_end)` and per-edge
`global_off`: going down (`y_end > y_start`) the channel sits above the
intervening nodes (or the endpoint span) by the margin plus
`abs(global_off)`; going up, symmetrically below. -/
def routeChannelY (pos : Pos) (u v : String)
    (x_start y_start x_end y_end global_off : ℚ) : ℚ :=
  let nip := nodesInPath pos u v x_start x_end
  if y_start < y_end then
    match nip with
    | [] => max y_start y_end + nodeMargin + pyAbs global_off
    | _ => listMaxQ nip + nodeMargin + pyAbs global_off
  else
    match nip with
    | [] => min y_start y_end - nodeMargin - pyAbs global_off
    | _ => listMinQ nip - nodeMargin - pyAbs global_off

/-- The flip-flop data-input classification flag of an edge into `v`
(`target_is_dff`, line 441). -/
def edgeTargetIsDff (c : Circuit) (v : String) : Bool :=
  get_gate_type c v == "DFF"

/-- One declared output fed into seven flip-flops: the jitters put the
seventh flip-flop to the right of the output. -/
def circuitCE4 : Circuit :=
  buildCircuit [.output "x", .dff "D1" "x", .dff "D2" "x", .dff "D3" "x",
    .dff "D4" "x", .dff "D5" "x", .dff "D6" "x", .dff "D7" "x"]

/-- A graph with the isolated input `a` (never referenced by any edge). -/
def circuitCE6 : Circuit :=
  buildCircuit [.input "a", .gate "c" "AND" ["b", "b"]]

/-- A node declared as INPUT, as OUTPUT and by a DFF definition. -/
def circuitCE10 : Circuit :=
  buildCircuit [.input "a", .output "a", .dff "a" "b"]

/-- A position map with a backward edge (`u` right of `v`) and a node `w`
between their x-coordinates but far below both. -/
def posCE5 : Pos := [("u", (10, 0)), ("v", (0, -1)), ("w", (5, -100))]

/-- Witness circuit for C7: one input feeding two flip-flops. -/
def circuitW7 : Circuit := buildCircuit [.input "x", .dff "D1" "x", .dff "D2" "x"]

/-- Witness circuit for C10 (amended): a node declared OUTPUT and DFF but
not INPUT. -/
def circuitW10 : Circuit := buildCircuit [.output "o", .dff "o" "b"]

/-! ## Theorems -/

/-! ## Association-list and set lemmas -/

theorem lookupS_mem {α : Type} {n : String} {v : α} :
    ∀ {l : List (String × α)}, lookupS n l = some v → (n, v) ∈ l := by
  intro l
  induction l with
  | nil => intro h; simp [lookupS] at h
  | cons p rest ih =>
    obtain ⟨k0, v0⟩ := p
    intro h
    rw [lookupS] at h
    by_cases hk : k0 = n
    · simp [hk] at h
      subst hk
      subst h
      exact List.mem_cons_self _ _
    · simp [hk] at h
      exact List.mem_cons_of_mem _ (ih h)

theorem lookupS_eq_none {α : Type} {n : String} :
    ∀ {l : List (String × α)}, lookupS n l = none ↔ n ∉ l.map Prod.fst := by
  intro l
  induction l with
  | nil => simp [lookupS]
  | cons p rest ih =>
    rw [lookupS]
    by_cases hk : p.1 = n
    · simp [hk]
    · simp [hk, ih, Ne.symm hk]

theorem lookupS_isSome {α : Type} {n : String} {l : List (String × α)} :
    (lookupS n l).isSome ↔ n ∈ l.map Prod.fst := by
  rcases h : lookupS n l with _ | v
  · simpa [h] using (lookupS_eq_none.mp h)
  · simp only [Option.isSome_some, true_iff]
    exact List.mem_map.mpr ⟨(n, v), lookupS_mem h, rfl⟩

theorem lookupS_append_some {α : Type} {n : String} {v : α} {l1 l2 : List (String × α)}
    (h : lookupS n l1 = some v) : lookupS n (l1 ++ l2) = some v := by
  induction l1 with
  | nil => simp [lookupS] at h
  | cons p rest ih =>
    rw [lookupS] at h
    rw [List.cons_append, lookupS]
    by_cases hk : p.1 = n
    · simpa [hk] using h
    · simp [hk] at h ⊢
      exact ih h

theorem lookupS_append_none {α : Type} {n : String} {l1 l2 : List (String × α)}
    (h : lookupS n l1 = none) : lookupS n (l1 ++ l2) = lookupS n l2 := by
  induction l1 with
  | nil => simp
  | cons p rest ih =>
    rw [lookupS] at h
    rw [List.cons_append, lookupS]
    by_cases hk : p.1 = n
    · simp [hk] at h
    · simp [hk] at h ⊢
      exact ih h

theorem setInsert_mem {l : List String} {x y : String} :
    x ∈ setInsert l y ↔ x ∈ l ∨ x = y := by
  unfold setInsert
  by_cases h : y ∈ l
  · simp only [if_pos h]
    constructor
    · exact Or.inl
    · rintro (hx | rfl) <;> [exact hx; exact h]
  · simp [if_neg h]

theorem setInsert_nodup {l : List String} {y : String} (h : l.Nodup) :
    (setInsert l y).Nodup := by
  unfold setInsert
  by_cases hy : y ∈ l
  · simpa [if_pos hy] using h
  · rw [if_neg hy]
    refine List.Nodup.append h (List.nodup_singleton y) ?_
    intro a ha hay
    rw [List.mem_singleton] at hay
    subst hay
    exact hy ha

theorem foldl_setInsert_mem {x : String} :
    ∀ {ins : List String} {l : List String},
      x ∈ ins.foldl setInsert l ↔ x ∈ l ∨ x ∈ ins := by
  intro ins
  induction ins with
  | nil => simp
  | cons a rest ih =>
    intro l
    rw [List.foldl_cons]
    rw [ih, setInsert_mem]
    constructor
    · rintro ((h | rfl) | h)
      · exact Or.inl h
      · exact Or.inr (List.mem_cons_self _ _)
      · exact Or.inr (List.mem_cons_of_mem _ h)
    · rintro (h | h)
      · exact Or.inl (Or.inl h)
      · rcases List.mem_cons.mp h with rfl | h
        · exact Or.inl (Or.inr rfl)
        · exact Or.inr h

theorem foldl_setInsert_nodup :
    ∀ {ins : List String} {l : List String}, l.Nodup → (ins.foldl setInsert l).Nodup := by
  intro ins
  induction ins with
  | nil => intro l h; simpa using h
  | cons a rest ih =>
    intro l h
    rw [List.foldl_cons]
    exact ih (setInsert_nodup h)

theorem insertAssoc_mem {α : Type} {l : List (String × α)} {k : String} {v : α} :
    ∀ {p : String × α}, p ∈ insertAssoc l k v → p ∈ l ∨ p = (k, v) := by
  induction l with
  | nil => intro p hp; simp [insertAssoc] at hp; simp [hp]
  | cons q rest ih =>
    intro p hp
    rw [insertAssoc] at hp
    by_cases hk : q.1 = k
    · rw [if_pos hk] at hp
      rcases List.mem_cons.mp hp with rfl | hp
      · exact Or.inr rfl
      · exact Or.inl (List.mem_cons_of_mem _ hp)
    · rw [if_neg hk] at hp
      rcases List.mem_cons.mp hp with rfl | hp
      · exact Or.inl (List.mem_cons_self _ _)
      · rcases ih hp with h | h
        · exact Or.inl (List.mem_cons_of_mem _ h)
        · exact Or.inr h

theorem applyDecl_all_nodes_mono {c : Circuit} {d : Decl} {n : String}
    (h : n ∈ c.all_nodes) : n ∈ (applyDecl c d).all_nodes := by
  cases d <;> simp [applyDecl, setInsert_mem, foldl_setInsert_mem, h]

theorem applyDecl_wf {c : Circuit} (hc : CircuitWF c) (d : Decl) :
    CircuitWF (applyDecl c d) := by
  cases d with
  | input n =>
    refine ⟨setInsert_nodup hc.nodup, ?_, ?_, ?_, ?_⟩ <;>
      simp only [applyDecl, setInsert_mem]
    · intro m hm
      rcases hm with h | rfl
      · exact Or.inl (hc.inputs_sub m h)
      · exact Or.inr rfl
    · exact fun m hm => Or.inl (hc.outputs_sub m hm)
    · exact fun p hp => ⟨Or.inl (hc.dffs_sub p hp).1, Or.inl (hc.dffs_sub p hp).2⟩
    · exact fun p hp => ⟨Or.inl (hc.gates_sub p hp).1,
        fun m hm => Or.inl ((hc.gates_sub p hp).2 m hm)⟩
  | output n =>
    refine ⟨setInsert_nodup hc.nodup, ?_, ?_, ?_, ?_⟩ <;>
      simp only [applyDecl, setInsert_mem]
    · exact fun m hm => Or.inl (hc.inputs_sub m hm)
    · intro m hm
      rcases hm with h | rfl
      · exact Or.inl (hc.outputs_sub m h)
      · exact Or.inr rfl
    · exact fun p hp => ⟨Or.inl (hc.dffs_sub p hp).1, Or.inl (hc.dffs_sub p hp).2⟩
    · exact fun p hp => ⟨Or.inl (hc.gates_sub p hp).1,
        fun m hm => Or.inl ((hc.gates_sub p hp).2 m hm)⟩
  | dff o i =>
    refine ⟨setInsert_nodup (setInsert_nodup hc.nodup), ?_, ?_, ?_, ?_⟩ <;>
      simp only [applyDecl, setInsert_mem]
    · exact fun m hm => Or.inl (Or.inl (hc.inputs_sub m hm))
    · exact fun m hm => Or.inl (Or.inl (hc.outputs_sub m hm))
    · intro p hp
      rcases insertAssoc_mem hp with h | rfl
      · exact ⟨Or.inl (Or.inl (hc.dffs_sub p h).1), Or.inl (Or.inl (hc.dffs_sub p h).2)⟩
      · exact ⟨Or.inl (Or.inr rfl), Or.inr rfl⟩
    · exact fun p hp => ⟨Or.inl (Or.inl (hc.gates_sub p hp).1),
        fun m hm => Or.inl (Or.inl ((hc.gates_sub p hp).2 m hm))⟩
  | gate o t ins =>
    refine ⟨foldl_setInsert_nodup (setInsert_nodup hc.nodup), ?_, ?_, ?_, ?_⟩ <;>
      simp only [applyDecl, foldl_setInsert_mem, setInsert_mem]
    · exact fun m hm => Or.inl (Or.inl (hc.inputs_sub m hm))
    · exact fun m hm => Or.inl (Or.inl (hc.outputs_sub m hm))
    · exact fun p hp => ⟨Or.inl (Or.inl (hc.dffs_sub p hp).1),
        Or.inl (Or.inl (hc.dffs_sub p hp).2)⟩
    · intro p hp
      rcases insertAssoc_mem hp with h | rfl
      · exact ⟨Or.inl (Or.inl (hc.gates_sub p h).1),
          fun m hm => Or.inl (Or.inl ((hc.gates_sub p h).2 m hm))⟩
      · exact ⟨Or.inl (Or.inr rfl), fun m hm => Or.inr hm⟩

theorem buildCircuit_wf (decls : List Decl) : CircuitWF (buildCircuit decls) := by
  have base : CircuitWF {} := ⟨List.nodup_nil, by simp, by simp, by simp, by simp⟩
  rw [buildCircuit]
  generalize ({} : Circuit) = c0 at base ⊢
  induction decls generalizing c0 with
  | nil => simpa using base
  | cons d rest ih => exact ih (applyDecl c0 d) (applyDecl_wf base d)

/-- Every signal a node's fan-in mentions is itself a node of the graph. -/
theorem get_inputs_sub {c : Circuit} (hc : CircuitWF c) (n : String) :
    ∀ m ∈ get_inputs c n, m ∈ c.all_nodes := by
  intro m hm
  rw [get_inputs] at hm
  rcases h : lookupS n c.dffs with _ | i
  · rw [h] at hm
    rcases h2 : lookupS n c.gates with _ | tv
    · simp [h2] at hm
    · rw [h2] at hm
      exact (hc.gates_sub _ (lookupS_mem h2)).2 m hm
  · rw [h] at hm
    simp at hm
    subst hm
    exact (hc.dffs_sub _ (lookupS_mem h)).2

theorem remaining_cons {U : List String} {a : String} {v : List String}
    (haU : a ∈ U) (hav : a ∉ v) : remaining U (a :: v) + 1 = remaining U v := by
  unfold remaining
  rw [List.toFinset_cons, Finset.sdiff_insert]
  have hmem : a ∈ U.toFinset \ v.toFinset := by
    rw [Finset.mem_sdiff, List.mem_toFinset, List.mem_toFinset]
    exact ⟨haU, hav⟩
  rw [Finset.card_erase_of_mem hmem]
  exact Nat.succ_pred_eq_of_pos (Finset.card_pos.mpr ⟨a, hmem⟩)

theorem remaining_lt_fuelBound (c : Circuit) (v : List String) :
    remaining c.all_nodes v < fuelBound c := by
  unfold remaining fuelBound
  have h1 : (c.all_nodes.toFinset \ v.toFinset).card ≤ c.all_nodes.toFinset.card :=
    Finset.card_le_card Finset.sdiff_subset
  exact Nat.lt_succ_of_le (le_trans h1 c.all_nodes.toFinset_card_le)

theorem dfsMany_isSome_of (c : Circuit) (fuel : Nat)
    (hdfs : ∀ (visiting : List String) (memo : Memo) (node : String),
      node ∈ c.all_nodes → remaining c.all_nodes visiting < fuel →
      (dfs c fuel visiting memo node).isSome) :
    ∀ (ns : List String) (visiting : List String) (memo : Memo),
      (∀ x ∈ ns, x ∈ c.all_nodes) → remaining c.all_nodes visiting < fuel →
      (dfsMany c fuel visiting memo ns).isSome := by
  intro ns
  induction ns with
  | nil => intro v m _ _; simp [dfsMany]
  | cons n rest ih =>
    intro v m hsub hrem
    have h1 := hdfs v m n (hsub n (List.mem_cons_self n rest)) hrem
    rcases hh : dfs c fuel v m n with _ | ⟨d, m1⟩
    · rw [hh] at h1; simp at h1
    · have h2 := ih v m1 (fun x hx => hsub x (List.mem_cons_of_mem _ hx)) hrem
      rcases hh2 : dfsMany c fuel v m1 rest with _ | r
      · rw [hh2] at h2; simp at h2
      · simp [dfsMany, hh, hh2]

theorem dfs_isSome (c : Circuit) (hc : CircuitWF c) :
    ∀ (fuel : Nat) (visiting : List String) (memo : Memo) (node : String),
      node ∈ c.all_nodes → remaining c.all_nodes visiting < fuel →
      (dfs c fuel visiting memo node).isSome := by
  intro fuel
  induction fuel with
  | zero => intro v m n _ h; exact absurd h (Nat.not_lt_zero _)
  | succ f ihf =>
    intro v m n hn hrem
    rcases hm : lookupS n m with _ | d
    · by_cases hv : n ∈ v
      · simp [dfs, hm, hv]
      · rcases hi : get_inputs c n with _ | ⟨i, is⟩
        · simp [dfs, hm, hv, hi]
        · have hsub : ∀ x ∈ i :: is, x ∈ c.all_nodes := by
            intro x hx
            exact get_inputs_sub hc n x (hi ▸ hx)
          have hrem' : remaining c.all_nodes (n :: v) < f := by
            have hcons := remaining_cons hn hv
            omega
          have hmany := dfsMany_isSome_of c f (fun v' m' n' hn' hr' => ihf v' m' n' hn' hr')
            (i :: is) (n :: v) m hsub hrem'
          rcases hh : dfsMany c f (n :: v) m (i :: is) with _ | ⟨ds, m1⟩
          · rw [hh] at hmany; simp at hmany
          · simp [dfs, hm, hv, hi, hh]
    · simp [dfs, hm]

theorem runDepths_isSome (c : Circuit) (hc : CircuitWF c) :
    ∀ (ns : List String) (memo : Memo), (∀ x ∈ ns, x ∈ c.all_nodes) →
      (runDepths c (fuelBound c) ns memo).isSome := by
  intro ns
  induction ns with
  | nil => intro m _; simp [runDepths]
  | cons n rest ih =>
    intro m hsub
    have h1 := dfs_isSome c hc (fuelBound c) [] m n (hsub n (List.mem_cons_self n rest))
      (remaining_lt_fuelBound c [])
    rcases hh : dfs c (fuelBound c) [] m n with _ | ⟨d, m1⟩
    · rw [hh] at h1; simp at h1
    · have h2 := ih m1 (fun x hx => hsub x (List.mem_cons_of_mem _ hx))
      simpa [runDepths, hh] using h2

theorem compute_node_depths_isSome (c : Circuit) (hc : CircuitWF c) :
    (compute_node_depths c).isSome :=
  runDepths_isSome c hc c.all_nodes [] (fun _ hx => hx)

/-! ## The depth contract satisfied by the memo table -/

theorem lookupS_eq_none_of_keys {α : Type} {n : String} {l : List (String × α)}
    (h : ∀ p ∈ l, p.1 ≠ n) : lookupS n l = none := by
  rw [lookupS_eq_none]
  intro hmem
  rcases List.mem_map.mp hmem with ⟨p, hp, hpn⟩
  exact h p hp hpn

theorem memoExt_refl (visiting : List String) (memo : Memo) : MemoExt visiting memo memo :=
  ⟨[], by simp, by simp⟩

theorem memoExt_trans {v : List String} {m1 m2 m3 : Memo}
    (h12 : MemoExt v m1 m2) (h23 : MemoExt v m2 m3) : MemoExt v m1 m3 := by
  obtain ⟨e1, rfl, he1⟩ := h12
  obtain ⟨e2, rfl, he2⟩ := h23
  exact ⟨e1 ++ e2, by simp, fun p hp => by
    rcases List.mem_append.mp hp with h | h
    · exact he1 p h
    · exact he2 p h⟩

theorem memoExt_lookup {v : List String} {m m' : Memo} {n : String} {d : Nat}
    (h : MemoExt v m m') (hl : lookupS n m = some d) : lookupS n m' = some d := by
  obtain ⟨ext, rfl, _⟩ := h
  exact lookupS_append_some hl

theorem memoInv_append {c : Circuit} {m : Memo} {n : String} {d : Nat}
    (hm : MemoInv c m)
    (h0 : get_inputs c n = [] → d = 0)
    (h1 : get_inputs c n ≠ [] → ∃ contribs : List Nat,
      contribs.length = (get_inputs c n).length ∧
      d = listMax (contribs.map (· + 1)) ∧
      ∀ q ∈ contribs.zip (get_inputs c n), q.1 = 0 ∨ lookupS q.2 (m ++ [(n, d)]) = some q.1) :
    MemoInv c (m ++ [(n, d)]) := by
  intro p hp
  rcases List.mem_append.mp hp with hpm | hpn
  · refine ⟨(hm p hpm).1, fun hne => ?_⟩
    obtain ⟨contribs, hlen, hmax, hall⟩ := (hm p hpm).2 hne
    exact ⟨contribs, hlen, hmax, fun q hq => by
      rcases hall q hq with h | h
      · exact Or.inl h
      · exact Or.inr (lookupS_append_some h)⟩
  · rw [List.mem_singleton] at hpn
    subst hpn
    exact ⟨h0, h1⟩

theorem dfsMany_sound_of (c : Circuit) (fuel : Nat)
    (hdfs : ∀ (visiting : List String) (memo : Memo) (node : String) (d : Nat) (memo' : Memo),
      MemoInv c memo → dfs c fuel visiting memo node = some (d, memo') →
      MemoExt visiting memo memo' ∧ MemoInv c memo' ∧
        (lookupS node memo' = some d ∨ (node ∈ visiting ∧ d = 0))) :
    ∀ (ns : List String) (visiting : List String) (memo : Memo) (ds : List Nat) (memo' : Memo),
      MemoInv c memo → dfsMany c fuel visiting memo ns = some (ds, memo') →
      MemoExt visiting memo memo' ∧ MemoInv c memo' ∧ ds.length = ns.length ∧
        ∀ q ∈ ds.zip ns, q.1 = 0 ∨ lookupS q.2 memo' = some q.1 := by
  intro ns
  induction ns with
  | nil =>
    intro v m ds m' hinv heq
    rw [dfsMany] at heq
    simp only [Option.some.injEq, Prod.mk.injEq] at heq
    obtain ⟨rfl, rfl⟩ := heq
    exact ⟨memoExt_refl v m, hinv, by simp, by simp⟩
  | cons n rest ih =>
    intro v m ds m' hinv heq
    rcases hh : dfs c fuel v m n with _ | ⟨d, m1⟩
    · rw [dfsMany, hh] at heq; simp at heq
    · rcases hh2 : dfsMany c fuel v m1 rest with _ | ⟨ds1, m2⟩
      · rw [dfsMany, hh] at heq; simp [hh2] at heq
      · rw [dfsMany, hh] at heq
        simp only [hh2, Option.some.injEq, Prod.mk.injEq] at heq
        obtain ⟨h1, h2⟩ := heq
        subst h1
        subst h2
        obtain ⟨hext1, hinv1, hres1⟩ := hdfs v m n d m1 hinv hh
        obtain ⟨hext2, hinv2, hlen, hall⟩ := ih v m1 ds1 m2 hinv1 hh2
        refine ⟨memoExt_trans hext1 hext2, hinv2, by simpa using hlen, ?_⟩
        intro q hq
        rw [List.zip_cons_cons] at hq
        rcases List.mem_cons.mp hq with rfl | hq'
        · rcases hres1 with h | h
          · exact Or.inr (memoExt_lookup hext2 h)
          · exact Or.inl h.2
        · exact hall q hq'

theorem dfs_sound (c : Circuit) :
    ∀ (fuel : Nat) (visiting : List String) (memo : Memo) (node : String) (d : Nat) (memo' : Memo),
      MemoInv c memo → dfs c fuel visiting memo node = some (d, memo') →
      MemoExt visiting memo memo' ∧ MemoInv c memo' ∧
        (lookupS node memo' = some d ∨ (node ∈ visiting ∧ d = 0)) := by
  intro fuel
  induction fuel with
  | zero => intro v m n d m' _ heq; rw [dfs] at heq; exact absurd heq (by simp)
  | succ f ihf =>
    intro v m n d m' hinv heq
    rcases hm : lookupS n m with _ | d0
    · by_cases hv : n ∈ v
      · rw [dfs, hm] at heq
        simp only [hv, ite_true, if_pos, Option.some.injEq, Prod.mk.injEq] at heq
        obtain ⟨h1, h2⟩ := heq
        subst h1
        subst h2
        exact ⟨memoExt_refl v m, hinv, Or.inr ⟨hv, rfl⟩⟩
      · rcases hi : get_inputs c n with _ | ⟨i, is⟩
        · rw [dfs, hm, hi] at heq
          simp only [hv, if_neg, not_false_iff, ite_false,
            Option.some.injEq, Prod.mk.injEq] at heq
          obtain ⟨h1, h2⟩ := heq
          subst h1
          subst h2
          refine ⟨⟨[(n, 0)], rfl, by simpa using hv⟩, memoInv_append hinv (fun _ => rfl)
            (fun hne => absurd hi hne), Or.inl ?_⟩
          rw [lookupS_append_none hm, lookupS]
          simp
        · rcases hh : dfsMany c f (n :: v) m (i :: is) with _ | ⟨ds, m1⟩
          · rw [dfs, hm, hi] at heq; simp [hv, hh] at heq
          · rw [dfs, hm, hi] at heq
            simp only [hv, hh, if_neg, not_false_iff, ite_false,
              Option.some.injEq, Prod.mk.injEq] at heq
            obtain ⟨h1, h2⟩ := heq
            subst h1
            subst h2
            obtain ⟨hext1, hinv1, hlen, hall⟩ :=
              dfsMany_sound_of c f (fun v' m' n' d' mm' h1 h2 => ihf v' m' n' d' mm' h1 h2)
                (i :: is) (n :: v) m ds m1 hinv hh
            obtain ⟨ext1, rfl, hext1keys⟩ := hext1
            have hkeysne : ∀ p ∈ ext1, p.1 ≠ n := by
              intro p hp hpn
              exact hext1keys p hp (hpn ▸ List.mem_cons_self n v)
            have hm1none : lookupS n (m ++ ext1) = none := by
              rw [lookupS_append_none hm]
              exact lookupS_eq_none_of_keys hkeysne
            refine ⟨?_, ?_, Or.inl ?_⟩
            · refine ⟨ext1 ++ [(n, listMax (ds.map (· + 1)))], by simp, ?_⟩
              intro p hp
              rcases List.mem_append.mp hp with h | h
              · exact fun hvmem => hext1keys p h (List.mem_cons_of_mem _ hvmem)
              · rw [List.mem_singleton] at h
                subst h
                exact hv
            · refine memoInv_append hinv1 (fun h0 => absurd h0 (by simp [hi])) (fun _ => ?_)
              refine ⟨ds, by simpa [hi] using hlen, rfl, ?_⟩
              intro q hq
              rw [hi] at hq
              rcases hall q hq with h | h
              · exact Or.inl h
              · exact Or.inr (lookupS_append_some h)
            · rw [lookupS_append_none hm1none, lookupS]
              simp
    · rw [dfs, hm] at heq
      simp only [Option.some.injEq, Prod.mk.injEq] at heq
      obtain ⟨rfl, rfl⟩ := heq
      exact ⟨memoExt_refl v m, hinv, Or.inl hm⟩

theorem runDepths_sound (c : Circuit) (fuel : Nat) :
    ∀ (ns : List String) (memo : Memo) (memo' : Memo),
      MemoInv c memo → runDepths c fuel ns memo = some memo' →
      MemoExt [] memo memo' ∧ MemoInv c memo' ∧
        ∀ n ∈ ns, (lookupS n memo').isSome := by
  intro ns
  induction ns with
  | nil =>
    intro m m' hinv heq
    rw [runDepths] at heq
    simp only [Option.some.injEq] at heq
    subst heq
    exact ⟨memoExt_refl [] m, hinv, by simp⟩
  | cons n rest ih =>
    intro m m' hinv heq
    rcases hh : dfs c fuel [] m n with _ | ⟨d, m1⟩
    · rw [runDepths, hh] at heq; simp at heq
    · rw [runDepths, hh] at heq
      obtain ⟨hext1, hinv1, hres1⟩ := dfs_sound c fuel [] m n d m1 hinv hh
      obtain ⟨hext2, hinv2, hall⟩ := ih m1 m' hinv1 heq
      refine ⟨memoExt_trans hext1 hext2, hinv2, ?_⟩
      intro x hx
      rcases List.mem_cons.mp hx with rfl | hx'
      · rcases hres1 with h | h
        · rw [memoExt_lookup hext2 h]; simp
        · exact absurd h.1 (List.not_mem_nil x)
      · exact hall x hx'

theorem dfsMany_keys_of (c : Circuit) (fuel : Nat)
    (hdfs : ∀ (v : List String) (m : Memo) (n : String) (d : Nat) (m' : Memo),
      (m.map Prod.fst).Nodup → (∀ p ∈ m, p.1 ∈ c.all_nodes) → n ∈ c.all_nodes →
      dfs c fuel v m n = some (d, m') →
      (∃ ext, m' = m ++ ext ∧ ∀ p ∈ ext, p.1 ∉ v) ∧
        (m'.map Prod.fst).Nodup ∧ (∀ p ∈ m', p.1 ∈ c.all_nodes)) :
    ∀ (ns : List String) (v : List String) (m : Memo) (ds : List Nat) (m' : Memo),
      (m.map Prod.fst).Nodup → (∀ p ∈ m, p.1 ∈ c.all_nodes) →
      (∀ x ∈ ns, x ∈ c.all_nodes) →
      dfsMany c fuel v m ns = some (ds, m') →
      (∃ ext, m' = m ++ ext ∧ ∀ p ∈ ext, p.1 ∉ v) ∧
        (m'.map Prod.fst).Nodup ∧ (∀ p ∈ m', p.1 ∈ c.all_nodes) := by
  intro ns
  induction ns with
  | nil =>
    intro v m ds m' hnd hsub _ heq
    rw [dfsMany] at heq
    simp only [Option.some.injEq, Prod.mk.injEq] at heq
    obtain ⟨rfl, rfl⟩ := heq
    exact ⟨⟨[], by simp, by simp⟩, hnd, hsub⟩
  | cons n rest ih =>
    intro v m ds m' hnd hsub hns heq
    rcases hh : dfs c fuel v m n with _ | ⟨d, m1⟩
    · rw [dfsMany, hh] at heq; simp at heq
    · rcases hh2 : dfsMany c fuel v m1 rest with _ | ⟨ds1, m2⟩
      · rw [dfsMany, hh] at heq; simp [hh2] at heq
      · rw [dfsMany, hh] at heq
        simp only [hh2, Option.some.injEq, Prod.mk.injEq] at heq
        obtain ⟨h1, h2⟩ := heq
        subst h1
        subst h2
        obtain ⟨⟨e1, rfl, he1⟩, hnd1, hsub1⟩ :=
          hdfs v m n d m1 hnd hsub (hns n (List.mem_cons_self n rest)) hh
        obtain ⟨⟨e2, rfl, he2⟩, hnd2, hsub2⟩ :=
          ih v (m ++ e1) ds1 m2 hnd1 hsub1 (fun x hx => hns x (List.mem_cons_of_mem _ hx)) hh2
        refine ⟨⟨e1 ++ e2, by simp, ?_⟩, hnd2, hsub2⟩
        intro p hp
        rcases List.mem_append.mp hp with h | h
        · exact he1 p h
        · exact he2 p h

theorem dfs_keys (c : Circuit)
    (hcl : ∀ (n m : String), m ∈ get_inputs c n → m ∈ c.all_nodes) :
    ∀ (fuel : Nat) (v : List String) (m : Memo) (n : String) (d : Nat) (m' : Memo),
      (m.map Prod.fst).Nodup → (∀ p ∈ m, p.1 ∈ c.all_nodes) → n ∈ c.all_nodes →
      dfs c fuel v m n = some (d, m') →
      (∃ ext, m' = m ++ ext ∧ ∀ p ∈ ext, p.1 ∉ v) ∧
        (m'.map Prod.fst).Nodup ∧ (∀ p ∈ m', p.1 ∈ c.all_nodes) := by
  intro fuel
  induction fuel with
  | zero => intro v m n d m' _ _ _ heq; rw [dfs] at heq; exact absurd heq (by simp)
  | succ f ihf =>
    intro v m n d m' hnd hsub hn heq
    rcases hm : lookupS n m with _ | d0
    · by_cases hv : n ∈ v
      · rw [dfs, hm] at heq
        simp only [hv, ite_true, if_pos, Option.some.injEq, Prod.mk.injEq] at heq
        obtain ⟨h1, h2⟩ := heq
        subst h1
        subst h2
        exact ⟨⟨[], by simp, by simp⟩, hnd, hsub⟩
      · rcases hi : get_inputs c n with _ | ⟨i, is⟩
        · rw [dfs, hm, hi] at heq
          simp only [hv, if_neg, not_false_iff, ite_false,
            Option.some.injEq, Prod.mk.injEq] at heq
          obtain ⟨h1, h2⟩ := heq
          subst h1
          subst h2
          refine ⟨⟨[(n, 0)], rfl, by simpa using hv⟩, ?_, ?_⟩
          · rw [List.map_append]
            refine List.Nodup.append hnd (by simp) ?_
            intro a ha hay
            simp at hay
            subst hay
            exact (lookupS_eq_none.mp hm) ha
          · intro p hp
            rcases List.mem_append.mp hp with h | h
            · exact hsub p h
            · rw [List.mem_singleton] at h
              subst h
              exact hn
        · rcases hh : dfsMany c f (n :: v) m (i :: is) with _ | ⟨ds, m1⟩
          · rw [dfs, hm, hi] at heq; simp [hv, hh] at heq
          · rw [dfs, hm, hi] at heq
            simp only [hv, hh, if_neg, not_false_iff, ite_false,
              Option.some.injEq, Prod.mk.injEq] at heq
            obtain ⟨h1, h2⟩ := heq
            subst h1
            subst h2
            have hnssub : ∀ x ∈ i :: is, x ∈ c.all_nodes := by
              intro x hx
              exact hcl n x (hi ▸ hx)
            obtain ⟨⟨e1, rfl, he1⟩, hnd1, hsub1⟩ :=
              dfsMany_keys_of c f (fun v' m'' n' d' mm' a b e g => ihf v' m'' n' d' mm' a b e g)
                (i :: is) (n :: v) m ds m1 hnd hsub hnssub hh
            have hkeysne : ∀ p ∈ e1, p.1 ≠ n := by
              intro p hp hpn
              exact he1 p hp (hpn ▸ List.mem_cons_self n v)
            have hm1none : lookupS n (m ++ e1) = none := by
              rw [lookupS_append_none hm]
              exact lookupS_eq_none_of_keys hkeysne
            refine ⟨⟨e1 ++ [(n, listMax (ds.map (· + 1)))], by simp, ?_⟩, ?_, ?_⟩
            · intro p hp
              rcases List.mem_append.mp hp with h | h
              · exact fun hvmem => he1 p h (List.mem_cons_of_mem _ hvmem)
              · rw [List.mem_singleton] at h
                subst h
                exact hv
            · rw [List.map_append]
              refine List.Nodup.append hnd1 (by simp) ?_
              intro a ha hay
              simp at hay
              subst hay
              exact (lookupS_eq_none.mp hm1none) ha
            · intro p hp
              rcases List.mem_append.mp hp with h | h
              · exact hsub1 p h
              · rw [List.mem_singleton] at h
                subst h
                exact hn
    · rw [dfs, hm] at heq
      simp only [Option.some.injEq, Prod.mk.injEq] at heq
      obtain ⟨h1, h2⟩ := heq
      subst h1
      subst h2
      exact ⟨⟨[], by simp, by simp⟩, hnd, hsub⟩

theorem runDepths_keys (c : Circuit)
    (hcl : ∀ (n m : String), m ∈ get_inputs c n → m ∈ c.all_nodes) (fuel : Nat) :
    ∀ (ns : List String) (m : Memo) (m' : Memo),
      (m.map Prod.fst).Nodup → (∀ p ∈ m, p.1 ∈ c.all_nodes) →
      (∀ x ∈ ns, x ∈ c.all_nodes) →
      runDepths c fuel ns m = some m' →
      (m'.map Prod.fst).Nodup ∧ (∀ p ∈ m', p.1 ∈ c.all_nodes) := by
  intro ns
  induction ns with
  | nil =>
    intro m m' hnd hsub _ heq
    rw [runDepths] at heq
    simp only [Option.some.injEq] at heq
    subst heq
    exact ⟨hnd, hsub⟩
  | cons n rest ih =>
    intro m m' hnd hsub hns heq
    rcases hh : dfs c fuel [] m n with _ | ⟨d, m1⟩
    · rw [runDepths, hh] at heq; simp at heq
    · rw [runDepths, hh] at heq
      obtain ⟨_, hnd1, hsub1⟩ :=
        dfs_keys c hcl fuel [] m n d m1 hnd hsub (hns n (List.mem_cons_self n rest)) hh
      exact ih m1 m' hnd1 hsub1 (fun x hx => hns x (List.mem_cons_of_mem _ hx)) heq

/-- The final depth dictionary: unique keys, all keys are graph nodes, every
graph node has an entry. -/
theorem nodeDepths_keys (c : Circuit) (hc : CircuitWF c) :
    ((nodeDepths c).map Prod.fst).Nodup ∧ (∀ p ∈ nodeDepths c, p.1 ∈ c.all_nodes) ∧
      ∀ n ∈ c.all_nodes, (lookupS n (nodeDepths c)).isSome := by
  have hcl : ∀ (n m : String), m ∈ get_inputs c n → m ∈ c.all_nodes :=
    fun n m hm => get_inputs_sub hc n m hm
  have hsome := compute_node_depths_isSome c hc
  rcases hh : compute_node_depths c with _ | m'
  · rw [hh] at hsome; simp at hsome
  · have hrun : runDepths c (fuelBound c) c.all_nodes [] = some m' := hh
    obtain ⟨hnd, hsub⟩ := runDepths_keys c hcl (fuelBound c) c.all_nodes [] m'
      (by simp) (by simp) (fun x hx => hx) hrun
    obtain ⟨_, _, hall⟩ := runDepths_sound c (fuelBound c) c.all_nodes [] m'
      (by intro p hp; simp at hp) hrun
    rw [nodeDepths, hh]
    exact ⟨hnd, hsub, hall⟩

theorem nodeDepths_sound (c : Circuit) (hc : CircuitWF c) :
    MemoInv c (nodeDepths c) ∧ ∀ n ∈ c.all_nodes, (lookupS n (nodeDepths c)).isSome := by
  have hsome := compute_node_depths_isSome c hc
  rcases hh : compute_node_depths c with _ | m'
  · rw [hh] at hsome; simp at hsome
  · have hrun : runDepths c (fuelBound c) c.all_nodes [] = some m' := hh
    obtain ⟨_, hinv, hall⟩ := runDepths_sound c (fuelBound c) c.all_nodes [] m'
      (by intro p hp; simp at hp) hrun
    rw [nodeDepths, hh]
    exact ⟨hinv, hall⟩

/-- **C1.** For every graph built from a declaration list, every graph node's
recorded depth satisfies the analyzer's contract: the depth is a natural
number (hence `≥ 0`), it is `0` whenever the node's predecessor list is
empty, and otherwise it is `1 + max` over the per-predecessor contributions,
where each predecessor contributes its own recorded depth — or `0` when it
was re-encountered while still being visited, in which case traversal
unwound without recursing. -/
theorem c1_depth_contract (decls : List Decl) (node : String)
    (hnode : node ∈ (buildCircuit decls).all_nodes) :
    ∃ d : Nat, lookupS node (nodeDepths (buildCircuit decls)) = some d ∧ 0 ≤ d ∧
      (get_inputs (buildCircuit decls) node = [] → d = 0) ∧
      (get_inputs (buildCircuit decls) node ≠ [] → ∃ contribs : List Nat,
        contribs.length = (get_inputs (buildCircuit decls) node).length ∧
        d = listMax (contribs.map (· + 1)) ∧
        ∀ q ∈ contribs.zip (get_inputs (buildCircuit decls) node),
          q.1 = 0 ∨ lookupS q.2 (nodeDepths (buildCircuit decls)) = some q.1) := by
  obtain ⟨hinv, hall⟩ := nodeDepths_sound _ (buildCircuit_wf decls)
  have hs := hall node hnode
  rcases hl : lookupS node (nodeDepths (buildCircuit decls)) with _ | d
  · rw [hl] at hs; simp at hs
  · have hprops := hinv _ (lookupS_mem hl)
    exact ⟨d, rfl, Nat.zero_le d, hprops.1, hprops.2⟩

/-- Witness for C1 at the graph `INPUT(a); b = AND(a, a)` and node `b`. -/
theorem c1_depth_contract_witness :
    ("b" ∈ (buildCircuit [.input "a", .gate "b" "AND" ["a", "a"]]).all_nodes) ∧
    (∃ d : Nat,
      lookupS "b" (nodeDepths (buildCircuit [.input "a", .gate "b" "AND" ["a", "a"]])) =
        some d ∧ 0 ≤ d ∧
      (get_inputs (buildCircuit [.input "a", .gate "b" "AND" ["a", "a"]]) "b" = [] → d = 0) ∧
      (get_inputs (buildCircuit [.input "a", .gate "b" "AND" ["a", "a"]]) "b" ≠ [] →
        ∃ contribs : List Nat,
        contribs.length =
          (get_inputs (buildCircuit [.input "a", .gate "b" "AND" ["a", "a"]]) "b").length ∧
        d = listMax (contribs.map (· + 1)) ∧
        ∀ q ∈ contribs.zip (get_inputs (buildCircuit [.input "a", .gate "b" "AND" ["a", "a"]]) "b"),
          q.1 = 0 ∨
            lookupS q.2 (nodeDepths (buildCircuit [.input "a", .gate "b" "AND" ["a", "a"]])) =
              some q.1)) :=
  ⟨by decide, c1_depth_contract [.input "a", .gate "b" "AND" ["a", "a"]] "b" (by decide)⟩

/-- **C2.** The depth computation terminates on every graph built from any
declaration list, cyclic graphs included: with fuel `|all_nodes| + 1` the
fuel-indexed traversal never runs out, because the `visiting` marker bounds
the nesting depth of the recursion by the number of distinct nodes. -/
theorem c2_depth_termination (decls : List Decl) :
    (compute_node_depths (buildCircuit decls)).isSome :=
  compute_node_depths_isSome _ (buildCircuit_wf decls)

theorem bhs_fold_nodes_mem (paths : List (List String))
    (acc : List (List String) × Finset String × Finset (String × String)) (x : String) :
    x ∈ (paths.foldl bhsStep acc).2.1 ↔ x ∈ acc.2.1 ∨ ∃ p ∈ paths, x ∈ p := by
  induction paths generalizing acc with
  | nil => simp
  | cons p rest ih =>
    rw [List.foldl_cons, ih]
    by_cases hp : p.isEmpty
    · rw [List.isEmpty_iff] at hp
      subst hp
      simp [bhsStep]
    · simp only [bhsStep, if_neg hp, Finset.mem_union, List.mem_toFinset, List.mem_cons]
      constructor
      · rintro ((h | h) | ⟨q, hq, hxq⟩)
        · exact Or.inl h
        · exact Or.inr ⟨p, Or.inl rfl, h⟩
        · exact Or.inr ⟨q, Or.inr hq, hxq⟩
      · rintro (h | ⟨q, (rfl | hq), hxq⟩)
        · exact Or.inl (Or.inl h)
        · exact Or.inl (Or.inr hxq)
        · exact Or.inr ⟨q, hq, hxq⟩

theorem bhs_fold_edges_mem (paths : List (List String))
    (acc : List (List String) × Finset String × Finset (String × String))
    (e : String × String) :
    e ∈ (paths.foldl bhsStep acc).2.2 ↔ e ∈ acc.2.2 ∨ ∃ p ∈ paths, e ∈ consecPairs p := by
  induction paths generalizing acc with
  | nil => simp
  | cons p rest ih =>
    rw [List.foldl_cons, ih]
    by_cases hp : p.isEmpty
    · rw [List.isEmpty_iff] at hp
      subst hp
      simp [bhsStep, consecPairs]
    · simp only [bhsStep, if_neg hp, Finset.mem_union, List.mem_toFinset, List.mem_cons]
      constructor
      · rintro ((h | h) | ⟨q, hq, hxq⟩)
        · exact Or.inl h
        · exact Or.inr ⟨p, Or.inl rfl, h⟩
        · exact Or.inr ⟨q, Or.inr hq, hxq⟩
      · rintro (h | ⟨q, (rfl | hq), hxq⟩)
        · exact Or.inl (Or.inl h)
        · exact Or.inl (Or.inr hxq)
        · exact Or.inr ⟨q, hq, hxq⟩

/-- **C3.** Parsing the two-block report yields exactly two critical paths in
file order, with delays `1.5` and `2.25` and node sequences
`[nodeA, nodeB]` and `[nodeC]`; loading keeps both (nonempty) sequences, and
the highlight sets built from them are node set `{nodeA, nodeB, nodeC}` and
edge set `{(nodeA, nodeB)}`. -/
theorem c3_report_roundtrip :
    parseReportLines reportC3 =
      .ok [⟨0, 3/2, ["nodeA", "nodeB"]⟩, ⟨1, 9/4, ["nodeC"]⟩] ∧
    load_paths_from_file "report.txt" (some reportC3) = .ok [["nodeA", "nodeB"], ["nodeC"]] ∧
    (build_highlight_sets [["nodeA", "nodeB"], ["nodeC"]]).2.1 = {"nodeA", "nodeB", "nodeC"} ∧
    (build_highlight_sets [["nodeA", "nodeB"], ["nodeC"]]).2.2 = {("nodeA", "nodeB")} := by
  exact ⟨by with_unfolding_all decide, by with_unfolding_all decide, by decide, by decide⟩

/-- **C8.** `build_highlight_sets` is order-independent: permuting the input
list leaves both highlight sets unchanged, the node set is exactly the union
of all sequence elements, and the edge set is exactly the union of each
sequence's consecutive ordered pairs (so empty sequences contribute nothing
and no cross-path edges are added). -/
theorem c8_highlight_order_independent (l1 l2 : List (List String)) (hperm : l1.Perm l2) :
    (build_highlight_sets l1).2.1 = (build_highlight_sets l2).2.1 ∧
    (build_highlight_sets l1).2.2 = (build_highlight_sets l2).2.2 ∧
    (∀ x, x ∈ (build_highlight_sets l1).2.1 ↔ ∃ p ∈ l1, x ∈ p) ∧
    (∀ e, e ∈ (build_highlight_sets l1).2.2 ↔ ∃ p ∈ l1, e ∈ consecPairs p) := by
  have hn : ∀ (l : List (List String)) (x : String),
      x ∈ (build_highlight_sets l).2.1 ↔ ∃ p ∈ l, x ∈ p := by
    intro l x
    rw [build_highlight_sets, bhs_fold_nodes_mem]
    simp
  have he : ∀ (l : List (List String)) (e : String × String),
      e ∈ (build_highlight_sets l).2.2 ↔ ∃ p ∈ l, e ∈ consecPairs p := by
    intro l e
    rw [build_highlight_sets, bhs_fold_edges_mem]
    simp
  refine ⟨Finset.ext fun x => ?_, Finset.ext fun e => ?_, hn l1, he l1⟩
  · rw [hn l1, hn l2]
    exact ⟨fun ⟨p, hp, hx⟩ => ⟨p, hperm.mem_iff.mp hp, hx⟩,
      fun ⟨p, hp, hx⟩ => ⟨p, hperm.mem_iff.mpr hp, hx⟩⟩
  · rw [he l1, he l2]
    exact ⟨fun ⟨p, hp, hx⟩ => ⟨p, hperm.mem_iff.mp hp, hx⟩,
      fun ⟨p, hp, hx⟩ => ⟨p, hperm.mem_iff.mpr hp, hx⟩⟩

/-- Witness for C8 on a concrete two-path list and a transposition of it. -/
theorem c8_highlight_order_independent_witness :
    ([["a", "b"], ["c"]] : List (List String)).Perm [["c"], ["a", "b"]] ∧
    ((build_highlight_sets [["a", "b"], ["c"]]).2.1 =
        (build_highlight_sets [["c"], ["a", "b"]]).2.1 ∧
      (build_highlight_sets [["a", "b"], ["c"]]).2.2 =
        (build_highlight_sets [["c"], ["a", "b"]]).2.2 ∧
      (∀ x, x ∈ (build_highlight_sets [["a", "b"], ["c"]]).2.1 ↔
        ∃ p ∈ [["a", "b"], ["c"]], x ∈ p) ∧
      (∀ e, e ∈ (build_highlight_sets [["a", "b"], ["c"]]).2.2 ↔
        ∃ p ∈ [["a", "b"], ["c"]], e ∈ consecPairs p)) :=
  ⟨by decide, c8_highlight_order_independent [["a", "b"], ["c"]] [["c"], ["a", "b"]] (by decide)⟩

theorem exceptOk_exists {ε α : Type} {e : Except ε α} (h : exceptOk e = true) :
    ∃ a, e = .ok a := by
  cases e with
  | ok a => exact ⟨a, rfl⟩
  | error err => simp [exceptOk] at h

theorem parseLine_ok (st : List CriticalPathData × Option CriticalPathData × Bool)
    (l : String) (h : headerDelayParses l = true) :
    exceptOk (parseLine st l) = true := by
  obtain ⟨paths, cur, reading⟩ := st
  simp only [parseLine]
  by_cases hl : pyStrip l = ""
  · simp [hl, exceptOk]
  · rcases hm : headerMatch (pyStrip l) with _ | g
    · simp only [if_neg hl, hm]
      rcases cur with _ | p
      · simp [exceptOk]
      · by_cases h1 : pyStartsWith (pyStrip l) "#node"
        · simp [h1, exceptOk]
        · by_cases h2 : pyStartsWith (pyStrip l) "#-"
          · cases reading <;> simp [h1, h2, exceptOk]
          · cases reading <;> simp [h1, h2, exceptOk]
    · simp only [headerDelayParses, hm] at h
      rcases hf : pyFloat? g.2 with _ | delay
      · rw [hf] at h; simp at h
      · simp [if_neg hl, hm, hf, exceptOk]

theorem parseReportLines_ok (lines : List String)
    (h : ∀ l ∈ lines, headerDelayParses l = true) :
    ∃ ps, parseReportLines lines = .ok ps := by
  have hfold : ∀ st, ∃ st', lines.foldlM parseLine st = .ok st' := by
    induction lines with
    | nil => intro st; exact ⟨st, rfl⟩
    | cons l rest ih =>
      intro st
      obtain ⟨st1, hst1⟩ :=
        exceptOk_exists (parseLine_ok st l (h l (List.mem_cons_self l rest)))
      obtain ⟨st2, hst2⟩ := ih (fun x hx => h x (List.mem_cons_of_mem _ hx)) st1
      exact ⟨st2, by rw [List.foldlM_cons, hst1]; simpa using hst2⟩
  obtain ⟨st', hst'⟩ := hfold ([], none, false)
  rw [parseReportLines]
  rcases st' with ⟨ps, cur, reading⟩
  rcases cur with _ | p
  · exact ⟨ps, by rw [hst']; rfl⟩
  · exact ⟨ps ++ [p], by rw [hst']; rfl⟩

/-- **C9 (amended).** A missing report file is fatal: the parser reports the
file in an error message and the run exits with status 1 (nonzero).
Malformed lines inside an existing report are silently ignored and are never
fatal, with one exception the counterexample exhibits: a header line whose
delay group matches the header pattern but is not parsable as a number
raises an uncaught error. -/
theorem c9_missing_file_fatal (filepath : String) (lines : List String)
    (hgood : ∀ l ∈ lines, headerDelayParses l = true) :
    load_paths_from_file filepath none =
      .error (.exitFailure 1 ("Error: nhssta output file " ++ filepath ++ " not found")) ∧
    (1 : Nat) ≠ 0 ∧
    ∃ ps, load_paths_from_file filepath (some lines) = .ok ps := by
  refine ⟨rfl, one_ne_zero, ?_⟩
  obtain ⟨ps, hps⟩ := parseReportLines_ok lines hgood
  exact ⟨_, by rw [load_paths_from_file, hps]⟩

/-- Witness for C9 (amended): a report containing malformed lines — bare
garbage, a lone separator, a column-header line — parses without error. -/
theorem c9_missing_file_fatal_witness :
    (∀ l ∈ ["garbage line", "#----", "#node slack", "# Path 0 (delay: 1.5)"],
      headerDelayParses l = true) ∧
    (load_paths_from_file "f.txt" none =
      .error (.exitFailure 1 ("Error: nhssta output file " ++ "f.txt" ++ " not found")) ∧
    (1 : Nat) ≠ 0 ∧
    ∃ ps, load_paths_from_file "f.txt"
      (some ["garbage line", "#----", "#node slack", "# Path 0 (delay: 1.5)"]) = .ok ps) :=
  ⟨by decide, c9_missing_file_fatal "f.txt"
    ["garbage line", "#----", "#node slack", "# Path 0 (delay: 1.5)"] (by decide)⟩

/-- **C4 (counterexample).** In `circuitCE4` the output `x` is placed at
`x = 46/5`, not `maxDepth × X_UNIT = 10` (the per-node jitter shifts it),
and the non-Output flip-flop `D7` is placed at `x = 19/2 > 46/5`, strictly
to the right of the output — both conjuncts of the claim fail. -/
theorem c4_counterexample :
    "x" ∈ circuitCE4.outputs ∧
    lookupS "x" (layoutPositions circuitCE4) = some (46/5, -3/10) ∧
    maxDepthAfter circuitCE4 = 2 ∧
    (46/5 : ℚ) ≠ (2 : ℚ) * 5 ∧
    ¬ "D7" ∈ circuitCE4.outputs ∧
    lookupS "D7" (layoutPositions circuitCE4) = some (19/2, -93/2) ∧
    ¬ ((19/2 : ℚ) ≤ 46/5) := by
  with_unfolding_all decide

/-- **C5 (counterexample).** For the backward multi-segment edge `(u, v)` of
`posCE5` (source x `10`, target x `0`, travelling upward since
`y_end = -1 < 0 = y_start`), the node `w` lies strictly between the two
x-coordinates with `y = -100`, yet the selected channel `y = -11/5` is not
below `w`'s y minus the margin: the code only collects nodes with
`x_start < x < x_end`, which is empty for a right-to-left edge. -/
theorem c5_counterexample :
    routeChannelY posCE5 "u" "v" 10 0 0 (-1) 0 = -11/5 ∧
    isDirectEdge 10 0 0 (-1) = false ∧
    ("w", (5, -100)) ∈ posCE5 ∧
    "w" ≠ "u" ∧ "w" ≠ "v" ∧
    (0 : ℚ) < 5 ∧ (5 : ℚ) < 10 ∧ (-1 : ℚ) < 0 ∧
    ¬ ((-11/5 : ℚ) ≤ -100 - nodeMargin) := by
  with_unfolding_all decide

/-- **C6 (counterexample).** In `circuitCE6` the node `a` is isolated (no
edge mentions it), its fallback position would be `(0, -0 × Y_UNIT) = (0, 0)`
(its index in the sorted node list is 0), but the layout places it at
`(-4/5, 6/5)`: isolated nodes are placed by the depth-0 layer, not by the
fallback. -/
theorem c6_counterexample :
    (∀ e ∈ circuitEdges circuitCE6, e.1 ≠ "a" ∧ e.2 ≠ "a") ∧
    sortBy strLe (gNodes circuitCE6) = ["a", "b", "c"] ∧
    lookupS "a" (layoutPositions circuitCE6) = some (-4/5, 6/5) ∧
    ((-4/5 : ℚ), (6/5 : ℚ)) ≠ ((0 : ℚ), (0 : ℚ)) := by
  with_unfolding_all decide

/-- **C10 (counterexample).** The node `a` of `circuitCE10` is declared both
as an OUTPUT and by a DFF definition, but classification returns INPUT, not
Output, because `a` is also declared as an input and Input has top
priority. -/
theorem c10_counterexample :
    "a" ∈ circuitCE10.outputs ∧
    (lookupS "a" circuitCE10.dffs).isSome ∧
    get_gate_type circuitCE10 "a" = "INPUT" ∧
    "INPUT" ≠ "OUTPUT" := by
  with_unfolding_all decide

/-! ## Facts about the output override and the layer grouping -/

theorem listMax_ge_of_mem {l : List Nat} {a : Nat} (h : a ∈ l) : a ≤ listMax l := by
  induction l with
  | nil => simp at h
  | cons x xs ih =>
    rw [listMax, List.foldr_cons]
    rcases List.mem_cons.mp h with rfl | h
    · exact Nat.le_max_left _ _
    · exact le_trans (ih h) (Nat.le_max_right _ _)

theorem listMax_le {l : List Nat} {b : Nat} (h : ∀ x ∈ l, x ≤ b) : listMax l ≤ b := by
  induction l with
  | nil => simp [listMax]
  | cons x xs ih =>
    rw [listMax, List.foldr_cons]
    exact max_le (h x (List.mem_cons_self x xs))
      (ih (fun y hy => h y (List.mem_cons_of_mem _ hy)))

theorem lookupS_insertAssoc_self {α : Type} {l : List (String × α)} {k : String} {v : α} :
    lookupS k (insertAssoc l k v) = some v := by
  induction l with
  | nil => simp [insertAssoc, lookupS]
  | cons p rest ih =>
    rw [insertAssoc]
    by_cases hk : p.1 = k
    · rw [if_pos hk, lookupS]
      simp
    · rw [if_neg hk, lookupS, if_neg hk]
      exact ih

theorem lookupS_insertAssoc_ne {α : Type} {l : List (String × α)} {k k' : String} {v : α}
    (hne : k' ≠ k) : lookupS k' (insertAssoc l k v) = lookupS k' l := by
  induction l with
  | nil =>
    simp only [insertAssoc, lookupS]
    rw [if_neg (fun h => hne h.symm)]
  | cons p rest ih =>
    rw [insertAssoc]
    by_cases hk : p.1 = k
    · rw [if_pos hk, lookupS, lookupS, hk]
      rw [if_neg (fun h => hne h.symm), if_neg (fun h => hne h.symm)]
    · rw [if_neg hk, lookupS, lookupS]
      by_cases hk' : p.1 = k'
      · rw [if_pos hk', if_pos hk']
      · rw [if_neg hk', if_neg hk']
        exact ih

theorem insertAssoc_keys_of_mem {α : Type} {l : List (String × α)} {k : String} {v : α}
    (h : k ∈ l.map Prod.fst) :
    (insertAssoc l k v).map Prod.fst = l.map Prod.fst := by
  induction l with
  | nil => simp at h
  | cons p rest ih =>
    rw [insertAssoc]
    by_cases hk : p.1 = k
    · rw [if_pos hk]
      simp [hk]
    · rw [if_neg hk]
      simp only [List.map_cons] at h ⊢
      rcases List.mem_cons.mp h with h1 | h1
      · exact absurd h1.symm hk
      · rw [ih h1]

theorem foldl_insertAssoc_lookup {α : Type} (vconst : α) :
    ∀ (outs : List String) (acc : List (String × α)) (n : String),
      lookupS n (outs.foldl (fun a o => insertAssoc a o vconst) acc) =
        if n ∈ outs then some vconst else lookupS n acc := by
  intro outs
  induction outs with
  | nil => intro acc n; simp
  | cons o rest ih =>
    intro acc n
    rw [List.foldl_cons, ih]
    by_cases hr : n ∈ rest
    · simp [hr, List.mem_cons_of_mem]
    · rw [if_neg hr]
      by_cases ho : n = o
      · subst ho
        simp [lookupS_insertAssoc_self]
      · rw [lookupS_insertAssoc_ne ho]
        simp [hr, ho]

theorem foldl_insertAssoc_keys {α : Type} (vconst : α) :
    ∀ (outs : List String) (acc : List (String × α)),
      (∀ o ∈ outs, o ∈ acc.map Prod.fst) →
      (outs.foldl (fun a o => insertAssoc a o vconst) acc).map Prod.fst =
        acc.map Prod.fst := by
  intro outs
  induction outs with
  | nil => intro acc _; simp
  | cons o rest ih =>
    intro acc hsub
    rw [List.foldl_cons]
    have hkeys := insertAssoc_keys_of_mem (l := acc) (v := vconst)
      (hsub o (List.mem_cons_self o rest))
    rw [ih (insertAssoc acc o vconst)
      (fun x hx => hkeys ▸ hsub x (List.mem_cons_of_mem _ hx)), hkeys]

theorem foldl_insertAssoc_mem {α : Type} (vconst : α) :
    ∀ (outs : List String) (acc : List (String × α)) (p : String × α),
      p ∈ outs.foldl (fun a o => insertAssoc a o vconst) acc →
      p ∈ acc ∨ (p.1 ∈ outs ∧ p.2 = vconst) := by
  intro outs
  induction outs with
  | nil => intro acc p hp; exact Or.inl (by simpa using hp)
  | cons o rest ih =>
    intro acc p hp
    rw [List.foldl_cons] at hp
    rcases ih (insertAssoc acc o vconst) p hp with h | h
    · rcases insertAssoc_mem h with h1 | h1
      · exact Or.inl h1
      · subst h1
        exact Or.inr ⟨List.mem_cons_self o rest, rfl⟩
    · exact Or.inr ⟨List.mem_cons_of_mem _ h.1, h.2⟩

/-- Lookup in the overridden depth dictionary: `max_depth + 1` for declared
outputs, the memoized depth otherwise. -/
theorem dA_lookup (c : Circuit) (n : String) :
    lookupS n (depthsAfterOverride c) =
      if n ∈ c.outputs then some (maxValues (nodeDepths c) + 1)
      else lookupS n (nodeDepths c) := by
  rw [depthsAfterOverride, foldl_insertAssoc_lookup]

theorem dA_keys (c : Circuit) (hc : CircuitWF c) :
    (depthsAfterOverride c).map Prod.fst = (nodeDepths c).map Prod.fst := by
  rw [depthsAfterOverride]
  refine foldl_insertAssoc_keys _ c.outputs (nodeDepths c) ?_
  intro o ho
  have := (nodeDepths_keys c hc).2.2 o (hc.outputs_sub o ho)
  rw [lookupS_isSome] at this
  exact this

theorem dA_keys_nodup (c : Circuit) (hc : CircuitWF c) :
    ((depthsAfterOverride c).map Prod.fst).Nodup := by
  rw [dA_keys c hc]
  exact (nodeDepths_keys c hc).1

theorem dA_entry_bound (c : Circuit) (hc : CircuitWF c) :
    ∀ p ∈ depthsAfterOverride c,
      p.1 ∈ c.all_nodes ∧ p.2 ≤ maxValues (nodeDepths c) + 1 := by
  intro p hp
  rw [depthsAfterOverride] at hp
  rcases foldl_insertAssoc_mem _ c.outputs (nodeDepths c) p hp with h | h
  · refine ⟨(nodeDepths_keys c hc).2.1 p h, ?_⟩
    exact le_trans (listMax_ge_of_mem (List.mem_map_of_mem Prod.snd h)) (Nat.le_succ _)
  · exact ⟨hc.outputs_sub p.1 h.1, le_of_eq h.2⟩

theorem dA_complete (c : Circuit) (hc : CircuitWF c) :
    ∀ n ∈ c.all_nodes, (lookupS n (depthsAfterOverride c)).isSome := by
  intro n hn
  rw [dA_lookup]
  by_cases ho : n ∈ c.outputs
  · simp [ho]
  · rw [if_neg ho]
    exact (nodeDepths_keys c hc).2.2 n hn

theorem maxDepthAfter_eq (c : Circuit) (hc : CircuitWF c) (hout : c.outputs ≠ []) :
    maxDepthAfter c = maxValues (nodeDepths c) + 1 := by
  rcases c.outputs.exists_mem_of_ne_nil hout with ⟨o, ho⟩
  refine le_antisymm ?_ ?_
  · rw [maxDepthAfter, maxValues]
    refine listMax_le ?_
    intro x hx
    rcases List.mem_map.mp hx with ⟨p, hp, rfl⟩
    exact (dA_entry_bound c hc p hp).2
  · have hl : lookupS o (depthsAfterOverride c) = some (maxValues (nodeDepths c) + 1) := by
      rw [dA_lookup, if_pos ho]
    have hmem := lookupS_mem hl
    rw [maxDepthAfter, maxValues]
    exact listMax_ge_of_mem (List.mem_map_of_mem Prod.snd hmem)

theorem groupMembers_mem {gs : List (Nat × List String)} {n : String} :
    n ∈ groupMembers gs ↔ ∃ d, PairIn gs d n := by
  rw [groupMembers]
  simp only [List.mem_join, List.mem_map, PairIn]
  constructor
  · rintro ⟨ns, ⟨⟨d, ns'⟩, hmem, rfl⟩, hn⟩
    exact ⟨d, ns', hmem, hn⟩
  · rintro ⟨d, ns, hmem, hn⟩
    exact ⟨ns, ⟨(d, ns), hmem, rfl⟩, hn⟩

theorem addToGroup_members_perm {gs : List (Nat × List String)} {d : Nat} {n : String} :
    (groupMembers (addToGroup gs d n)).Perm (groupMembers gs ++ [n]) := by
  induction gs with
  | nil => simp [addToGroup, groupMembers]
  | cons q rest ih =>
    obtain ⟨d0, ns⟩ := q
    rw [addToGroup]
    by_cases hd : d0 = d
    · rw [if_pos hd]
      simp only [groupMembers, List.map_cons, List.join_cons]
      rw [List.append_assoc ns [n], List.append_assoc ns]
      exact List.Perm.append_left ns (List.perm_append_comm.trans (by rfl))
    · rw [if_neg hd]
      simp only [groupMembers, List.map_cons, List.join_cons]
      rw [List.append_assoc ns]
      exact List.Perm.append_left ns ih

theorem addToGroup_pairIn {gs : List (Nat × List String)} {d : Nat} {n : String}
    {d' : Nat} {n' : String} :
    PairIn (addToGroup gs d n) d' n' ↔ PairIn gs d' n' ∨ (d' = d ∧ n' = n) := by
  induction gs with
  | nil =>
    constructor
    · rintro ⟨ns0, heq, hn0⟩
      rw [addToGroup, List.mem_singleton, Prod.mk.injEq] at heq
      refine Or.inr ⟨heq.1, ?_⟩
      rw [heq.2] at hn0
      simpa using hn0
    · rintro (⟨ns0, h, _⟩ | ⟨h1, h2⟩)
      · exact absurd h (List.not_mem_nil _)
      · refine ⟨[n], ?_, ?_⟩
        · rw [addToGroup, List.mem_singleton, h1]
        · simp [h2]
  | cons q rest ih =>
    obtain ⟨d0, ns⟩ := q
    rw [addToGroup]
    by_cases hd : d0 = d
    · subst hd
      rw [if_pos rfl]
      constructor
      · rintro ⟨ns', hmem, hn⟩
        rcases List.mem_cons.mp hmem with heq | hmem'
        · rw [Prod.mk.injEq] at heq
          obtain ⟨h1, h2⟩ := heq
          rw [h2] at hn
          rcases List.mem_append.mp hn with h | h
          · exact Or.inl ⟨ns, by rw [h1]; exact List.mem_cons_self _ _, h⟩
          · rw [List.mem_singleton] at h
            exact Or.inr ⟨h1, h⟩
        · exact Or.inl ⟨ns', List.mem_cons_of_mem _ hmem', hn⟩
      · rintro (⟨ns', hmem, hn⟩ | ⟨h1, h2⟩)
        · rcases List.mem_cons.mp hmem with heq | hmem'
          · rw [Prod.mk.injEq] at heq
            refine ⟨ns ++ [n], by rw [heq.1]; exact List.mem_cons_self _ _, ?_⟩
            rw [heq.2] at hn
            exact List.mem_append.mpr (Or.inl hn)
          · exact ⟨ns', List.mem_cons_of_mem _ hmem', hn⟩
        · refine ⟨ns ++ [n], by rw [h1]; exact List.mem_cons_self _ _, ?_⟩
          exact List.mem_append.mpr (Or.inr (by simp [h2]))
    · rw [if_neg hd]
      constructor
      · rintro ⟨ns', hmem, hn⟩
        rcases List.mem_cons.mp hmem with heq | hmem'
        · exact Or.inl ⟨ns', by rw [heq]; exact List.mem_cons_self _ _, hn⟩
        · rcases ih.mp ⟨ns', hmem', hn⟩ with h | h
          · obtain ⟨ns'', hm, hn''⟩ := h
            exact Or.inl ⟨ns'', List.mem_cons_of_mem _ hm, hn''⟩
          · exact Or.inr h
      · rintro (⟨ns', hmem, hn⟩ | ⟨h1, h2⟩)
        · rcases List.mem_cons.mp hmem with heq | hmem'
          · exact ⟨ns', by rw [heq]; exact List.mem_cons_self _ _, hn⟩
          · obtain ⟨ns'', hm, hn''⟩ := ih.mpr (Or.inl ⟨ns', hmem', hn⟩)
            exact ⟨ns'', List.mem_cons_of_mem _ hm, hn''⟩
        · obtain ⟨ns'', hm, hn''⟩ := ih.mpr (Or.inr ⟨h1, h2⟩)
          exact ⟨ns'', List.mem_cons_of_mem _ hm, hn''⟩

theorem groupFold_members (c : Circuit) :
    ∀ (entries : List (String × Nat))
      (acc : List (Nat × List String) × List (Nat × List String)),
      (groupMembers (entries.foldl (groupStep c) acc).1 ++
        groupMembers (entries.foldl (groupStep c) acc).2).Perm
        ((groupMembers acc.1 ++ groupMembers acc.2) ++ entries.map Prod.fst) := by
  intro entries
  induction entries with
  | nil => intro acc; simp
  | cons p rest ih =>
    intro acc
    rw [List.foldl_cons]
    refine (ih (groupStep c acc p)).trans ?_
    rw [groupStep]
    by_cases hdff : get_gate_type c p.1 = "DFF"
    · rw [if_pos hdff]
      have h1 : (groupMembers acc.1 ++ groupMembers (addToGroup acc.2 p.2 p.1)).Perm
          ((groupMembers acc.1 ++ groupMembers acc.2) ++ [p.1]) := by
        refine (List.Perm.append_left _ addToGroup_members_perm).trans ?_
        rw [List.append_assoc]
      refine (List.Perm.append_right _ h1).trans ?_
      rw [List.append_assoc, List.map_cons]
      rfl
    · rw [if_neg hdff]
      have h1 : (groupMembers (addToGroup acc.1 p.2 p.1) ++ groupMembers acc.2).Perm
          ((groupMembers acc.1 ++ groupMembers acc.2) ++ [p.1]) := by
        refine (List.Perm.append_right _ addToGroup_members_perm).trans ?_
        rw [List.append_assoc, List.append_assoc]
        exact List.Perm.append_left _ List.perm_append_comm
      refine (List.Perm.append_right _ h1).trans ?_
      rw [List.append_assoc, List.map_cons]
      rfl

theorem groupFold_pairIn_fst (c : Circuit) :
    ∀ (entries : List (String × Nat))
      (acc : List (Nat × List String) × List (Nat × List String)) (d : Nat) (n : String),
      PairIn (entries.foldl (groupStep c) acc).1 d n ↔
        PairIn acc.1 d n ∨ ((n, d) ∈ entries ∧ get_gate_type c n ≠ "DFF") := by
  intro entries
  induction entries with
  | nil => intro acc d n; simp
  | cons p rest ih =>
    intro acc d n
    rw [List.foldl_cons, ih, groupStep]
    by_cases hdff : get_gate_type c p.1 = "DFF"
    · rw [if_pos hdff]
      constructor
      · rintro (h | h)
        · exact Or.inl h
        · exact Or.inr ⟨List.mem_cons_of_mem _ h.1, h.2⟩
      · rintro (h | ⟨hmem, hnd⟩)
        · exact Or.inl h
        · rcases List.mem_cons.mp hmem with heq | hmem'
          · exfalso
            have : p.1 = n := congrArg Prod.fst heq.symm
            exact hnd (this ▸ hdff)
          · exact Or.inr ⟨hmem', hnd⟩
    · rw [if_neg hdff]
      constructor
      · rintro (h | h)
        · rcases addToGroup_pairIn.mp h with h1 | ⟨rfl, rfl⟩
          · exact Or.inl h1
          · exact Or.inr ⟨by simp, hdff⟩
        · exact Or.inr ⟨List.mem_cons_of_mem _ h.1, h.2⟩
      · rintro (h | ⟨hmem, hnd⟩)
        · exact Or.inl (addToGroup_pairIn.mpr (Or.inl h))
        · rcases List.mem_cons.mp hmem with heq | hmem'
          · rw [Prod.mk.injEq] at heq
            exact Or.inl (addToGroup_pairIn.mpr (Or.inr ⟨heq.2, heq.1⟩))
          · exact Or.inr ⟨hmem', hnd⟩

theorem groupFold_pairIn_snd (c : Circuit) :
    ∀ (entries : List (String × Nat))
      (acc : List (Nat × List String) × List (Nat × List String)) (d : Nat) (n : String),
      PairIn (entries.foldl (groupStep c) acc).2 d n ↔
        PairIn acc.2 d n ∨ ((n, d) ∈ entries ∧ get_gate_type c n = "DFF") := by
  intro entries
  induction entries with
  | nil => intro acc d n; simp
  | cons p rest ih =>
    intro acc d n
    rw [List.foldl_cons, ih, groupStep]
    by_cases hdff : get_gate_type c p.1 = "DFF"
    · rw [if_pos hdff]
      constructor
      · rintro (h | h)
        · rcases addToGroup_pairIn.mp h with h1 | ⟨rfl, rfl⟩
          · exact Or.inl h1
          · exact Or.inr ⟨by simp, hdff⟩
        · exact Or.inr ⟨List.mem_cons_of_mem _ h.1, h.2⟩
      · rintro (h | ⟨hmem, hnd⟩)
        · exact Or.inl (addToGroup_pairIn.mpr (Or.inl h))
        · rcases List.mem_cons.mp hmem with heq | hmem'
          · rw [Prod.mk.injEq] at heq
            exact Or.inl (addToGroup_pairIn.mpr (Or.inr ⟨heq.2, heq.1⟩))
          · exact Or.inr ⟨hmem', hnd⟩
    · rw [if_neg hdff]
      constructor
      · rintro (h | h)
        · exact Or.inl h
        · exact Or.inr ⟨List.mem_cons_of_mem _ h.1, h.2⟩
      · rintro (h | ⟨hmem, hnd⟩)
        · exact Or.inl h
        · rcases List.mem_cons.mp hmem with heq | hmem'
          · exfalso
            have : p.1 = n := congrArg Prod.fst heq.symm
            exact hdff (this ▸ hnd)
          · exact Or.inr ⟨hmem', hnd⟩

/-- Bucket membership in `depth_to_nodes`. -/
theorem depthToNodes_pairIn (c : Circuit) (d : Nat) (n : String) :
    PairIn (depthToNodes c) d n ↔
      (n, d) ∈ depthsAfterOverride c ∧ get_gate_type c n ≠ "DFF" := by
  rw [depthToNodes, groupNodes, groupFold_pairIn_fst]
  simp [PairIn]

/-- Bucket membership in `depth_to_dffs`. -/
theorem depthToDffs_pairIn (c : Circuit) (d : Nat) (n : String) :
    PairIn (depthToDffs c) d n ↔
      (n, d) ∈ depthsAfterOverride c ∧ get_gate_type c n = "DFF" := by
  rw [depthToDffs, groupNodes, groupFold_pairIn_snd]
  simp [PairIn]

/-- The partition preserves the node multiset of the depth dictionary. -/
theorem group_members_perm (c : Circuit) :
    (groupMembers (depthToNodes c) ++ groupMembers (depthToDffs c)).Perm
      ((depthsAfterOverride c).map Prod.fst) := by
  have h := groupFold_members c (depthsAfterOverride c) ([], [])
  rw [depthToNodes, depthToDffs, groupNodes]
  simpa [groupMembers] using h

/-! ## Facts about sorting and the placement loops -/

theorem insertSorted_perm {α : Type} (le : α → α → Bool) (a : α) :
    ∀ l : List α, (insertSorted le a l).Perm (a :: l) := by
  intro l
  induction l with
  | nil => simp [insertSorted]
  | cons b rest ih =>
    rw [insertSorted]
    by_cases h : le a b
    · rw [if_pos h]
    · rw [if_neg h]
      exact (List.Perm.cons b ih).trans (List.Perm.swap a b rest)

theorem sortBy_perm {α : Type} (le : α → α → Bool) :
    ∀ l : List α, (sortBy le l).Perm l := by
  intro l
  induction l with
  | nil => simp [sortBy]
  | cons a rest ih =>
    rw [sortBy, List.foldr_cons]
    exact (insertSorted_perm le a _).trans (List.Perm.cons a ih)

theorem placeLayer_keys (d : Nat) (ns : List String) (c0 : Nat) :
    (placeLayer d ns c0).map Prod.fst = sortBy strLe ns := by
  rw [placeLayer, List.map_map]
  have : (Prod.fst ∘ fun p : Nat × String =>
      (p.2, ((d : ℚ) * 5 + jitterX (c0 + p.1),
        -(((p.1 : ℚ) - (((sortBy strLe ns).length : ℚ) - 1) / 2)) * 3 + jitterY (c0 + p.1)))) =
      Prod.snd := rfl
  rw [this, List.enum_map_snd]

theorem placeLayer_lookup {d : Nat} {ns : List String} {c0 : Nat} {n : String} {x y : ℚ}
    (h : lookupS n (placeLayer d ns c0) = some (x, y)) :
    ∃ ctr : Nat, x = (d : ℚ) * 5 + jitterX ctr := by
  have hmem := lookupS_mem h
  rw [placeLayer] at hmem
  rcases List.mem_map.mp hmem with ⟨p, _, heq⟩
  rw [Prod.mk.injEq] at heq
  have hxy := heq.2
  rw [Prod.mk.injEq] at hxy
  exact ⟨c0 + p.1, hxy.1.symm⟩

theorem placeRegular_keys :
    ∀ (gs : List (Nat × List String)) (c0 : Nat),
      ((placeRegular gs c0).map Prod.fst).Perm (groupMembers gs) := by
  intro gs
  induction gs with
  | nil => intro c0; simp [placeRegular, groupMembers]
  | cons q rest ih =>
    intro c0
    obtain ⟨d, ns⟩ := q
    rw [placeRegular, List.map_append, placeLayer_keys]
    have h1 : groupMembers ((d, ns) :: rest) = ns ++ groupMembers rest := by
      simp [groupMembers]
    rw [h1]
    exact List.Perm.append (sortBy_perm strLe ns) (ih _)

theorem placeRegular_lookup :
    ∀ (gs : List (Nat × List String)) (c0 : Nat) (n : String) (x y : ℚ),
      lookupS n (placeRegular gs c0) = some (x, y) →
      ∃ (d ctr : Nat), PairIn gs d n ∧ x = (d : ℚ) * 5 + jitterX ctr := by
  intro gs
  induction gs with
  | nil => intro c0 n x y h; rw [placeRegular] at h; simp [lookupS] at h
  | cons q rest ih =>
    intro c0 n x y h
    obtain ⟨d, ns⟩ := q
    rw [placeRegular] at h
    rcases hl : lookupS n (placeLayer d ns c0) with _ | v
    · rw [lookupS_append_none hl] at h
      obtain ⟨d', ctr, hpi, hx⟩ := ih _ n x y h
      obtain ⟨ns', hmem, hn⟩ := hpi
      exact ⟨d', ctr, ⟨ns', List.mem_cons_of_mem _ hmem, hn⟩, hx⟩
    · rw [lookupS_append_some hl] at h
      rw [h] at hl
      obtain ⟨ctr, hx⟩ := placeLayer_lookup hl
      have hkey : n ∈ ns := by
        have hs : (lookupS n (placeLayer d ns c0)).isSome := by rw [hl]; rfl
        rw [lookupS_isSome, placeLayer_keys] at hs
        exact (sortBy_perm strLe ns).mem_iff.mp hs
      exact ⟨d, ctr, ⟨ns, List.mem_cons_self _ _, hkey⟩, hx⟩

theorem placeDffs_keys (c : Circuit) (dffs : List (Nat × String)) :
    (placeDffs c dffs).map Prod.fst = dffs.map Prod.snd := by
  rw [placeDffs, List.map_map]
  have h1 : (Prod.fst ∘ fun p : Nat × (Nat × String) =>
      (p.2.2, ((p.2.1 : ℚ) * 5 + ((p.1 % 7 : Nat) - 3 : ℚ) * (3/2),
        yBottom c - (p.1 : ℚ) * 6))) = (Prod.snd ∘ Prod.snd) := rfl
  rw [h1, ← List.map_map, List.enum_map_snd]

theorem placeDffs_lookup {c : Circuit} {dffs : List (Nat × String)} {n : String} {x y : ℚ}
    (h : lookupS n (placeDffs c dffs) = some (x, y)) :
    ∃ (i : Nat) (p : Nat × String), dffs[i]? = some p ∧ p.2 = n ∧
      y = yBottom c - (i : ℚ) * 6 := by
  have hmem := lookupS_mem h
  rw [placeDffs] at hmem
  rcases List.mem_map.mp hmem with ⟨q, hq, heq⟩
  rw [Prod.mk.injEq] at heq
  have hxy := heq.2
  rw [Prod.mk.injEq] at hxy
  refine ⟨q.1, q.2, ?_, heq.1, hxy.2.symm⟩
  have := List.mk_mem_enum_iff_getElem?.mp (by simpa using hq)
  exact this

/-- Indices determine the flip-flop's y uniquely: the spacing is strictly
decreasing. -/
theorem placeDffs_y_injective {c : Circuit} {dffs : List (Nat × String)}
    {n1 n2 : String} {x1 y1 x2 y2 : ℚ}
    (h1 : lookupS n1 (placeDffs c dffs) = some (x1, y1))
    (h2 : lookupS n2 (placeDffs c dffs) = some (x2, y2))
    (hne : n1 ≠ n2) : y1 ≠ y2 := by
  obtain ⟨i1, p1, hg1, hn1, hy1⟩ := placeDffs_lookup h1
  obtain ⟨i2, p2, hg2, hn2, hy2⟩ := placeDffs_lookup h2
  intro hcontra
  rw [hy1, hy2] at hcontra
  have hi : (i1 : ℚ) = (i2 : ℚ) := by linarith
  have hieq : i1 = i2 := Nat.cast_injective hi
  rw [hieq, hg2] at hg1
  have hpp : p2 = p1 := by simpa using hg1
  exact hne (by rw [← hn1, ← hn2, hpp])

/-! ## Fallback and graph node set -/

theorem addFallback_noop (pos : Pos) (gnodes : List String)
    (h : ∀ n ∈ gnodes, (lookupS n pos).isSome) :
    addFallback pos gnodes = pos := by
  rw [addFallback]
  have hgen : ∀ (l : List (Nat × String)) (acc : Pos),
      (∀ p ∈ l, (lookupS p.2 acc).isSome) →
      l.foldl (fun acc p =>
        if (lookupS p.2 acc).isSome then acc
        else acc ++ [(p.2, ((0 : ℚ), -(p.1 : ℚ) * 3))]) acc = acc := by
    intro l
    induction l with
    | nil => intro acc _; simp
    | cons p rest ih =>
      intro acc hall
      rw [List.foldl_cons, if_pos (hall p (List.mem_cons_self p rest))]
      exact ih acc (fun q hq => hall q (List.mem_cons_of_mem _ hq))
  refine hgen _ pos ?_
  intro p hp
  refine h p.2 ?_
  have hmem : p.2 ∈ sortBy strLe gnodes := by
    have h2 : p.2 ∈ (sortBy strLe gnodes).enum.map Prod.snd := List.mem_map_of_mem Prod.snd hp
    rwa [List.enum_map_snd] at h2
  exact (sortBy_perm strLe gnodes).mem_iff.mp hmem

theorem setInsert_eq_of_mem {l : List String} {x : String} (h : x ∈ l) :
    setInsert l x = l := by
  rw [setInsert, if_pos h]

theorem foldl_append_map_mem {α β : Type} (f : α → List β) :
    ∀ (l : List α) (init : List β) (e : β),
      e ∈ l.foldl (fun acc x => acc ++ f x) init ↔ e ∈ init ∨ ∃ x ∈ l, e ∈ f x := by
  intro l
  induction l with
  | nil => intro init e; simp
  | cons a rest ih =>
    intro init e
    rw [List.foldl_cons, ih]
    constructor
    · rintro (h | ⟨x, hx, he⟩)
      · rcases List.mem_append.mp h with h1 | h1
        · exact Or.inl h1
        · exact Or.inr ⟨a, List.mem_cons_self _ _, h1⟩
      · exact Or.inr ⟨x, List.mem_cons_of_mem _ hx, he⟩
    · rintro (h | ⟨x, hx, he⟩)
      · exact Or.inl (List.mem_append.mpr (Or.inl h))
      · rcases List.mem_cons.mp hx with rfl | hx'
        · exact Or.inl (List.mem_append.mpr (Or.inr he))
        · exact Or.inr ⟨x, hx', he⟩

theorem circuitEdges_sub (c : Circuit) (hc : CircuitWF c) :
    ∀ e ∈ circuitEdges c, e.1 ∈ c.all_nodes ∧ e.2 ∈ c.all_nodes := by
  intro e he
  rw [circuitEdges] at he
  rcases List.mem_append.mp he with h | h
  · rw [foldl_append_map_mem] at h
    rcases h with h | ⟨g, hg, he'⟩
    · simp at h
    · rcases List.mem_map.mp he' with ⟨inp, hinp, rfl⟩
      exact ⟨(hc.gates_sub g hg).2 inp hinp, (hc.gates_sub g hg).1⟩
  · rcases List.mem_map.mp h with ⟨p, hp, rfl⟩
    exact ⟨(hc.dffs_sub p hp).2, (hc.dffs_sub p hp).1⟩

theorem gNodes_eq (c : Circuit) (hc : CircuitWF c) : gNodes c = c.all_nodes := by
  rw [gNodes]
  have hgen : ∀ (es : List (String × String)),
      (∀ e ∈ es, e.1 ∈ c.all_nodes ∧ e.2 ∈ c.all_nodes) →
      es.foldl (fun acc e => setInsert (setInsert acc e.1) e.2) c.all_nodes =
        c.all_nodes := by
    intro es
    induction es with
    | nil => intro _; simp
    | cons e rest ih =>
      intro hall
      rw [List.foldl_cons,
        setInsert_eq_of_mem (hall e (List.mem_cons_self e rest)).1,
        setInsert_eq_of_mem (hall e (List.mem_cons_self e rest)).2]
      exact ih (fun q hq => hall q (List.mem_cons_of_mem _ hq))
  exact hgen (circuitEdges c) (circuitEdges_sub c hc)

/-! ## The assembled layout -/

theorem lookupS_eq_of_mem_nodup {α : Type} {l : List (String × α)} {k : String} {v : α}
    (hmem : (k, v) ∈ l) (hnd : (l.map Prod.fst).Nodup) : lookupS k l = some v := by
  induction l with
  | nil => simp at hmem
  | cons p rest ih =>
    rw [List.map_cons, List.nodup_cons] at hnd
    rw [lookupS]
    rcases List.mem_cons.mp hmem with heq | hmem'
    · rw [← heq]
      simp
    · by_cases hk : p.1 = k
      · exfalso
        refine hnd.1 ?_
        rw [hk]
        exact List.mem_map.mpr ⟨(k, v), hmem', rfl⟩
      · rw [if_neg hk]
        exact ih hmem' hnd.2

theorem collectDffs_map_snd :
    ∀ (dd : List (Nat × List String)) (acc : List (Nat × String)),
      ((dd.foldl (fun acc p => acc ++ p.2.map (fun n => (p.1, n))) acc).map Prod.snd) =
        acc.map Prod.snd ++ groupMembers dd := by
  intro dd
  induction dd with
  | nil => intro acc; simp [groupMembers]
  | cons q rest ih =>
    intro acc
    rw [List.foldl_cons, ih]
    simp [groupMembers, List.map_map]

theorem allDffsSorted_keys (dd : List (Nat × List String)) :
    ((allDffsSorted dd).map Prod.snd).Perm (groupMembers dd) := by
  rw [allDffsSorted]
  refine ((sortBy_perm depthNameLe _).map Prod.snd).trans ?_
  rw [collectDffs_map_snd]
  simp

theorem nodeDepths_keys_perm (c : Circuit) (hc : CircuitWF c) :
    ((nodeDepths c).map Prod.fst).Perm c.all_nodes := by
  obtain ⟨hnd, hsub, hcompl⟩ := nodeDepths_keys c hc
  rw [List.perm_ext_iff_of_nodup hnd hc.nodup]
  intro n
  constructor
  · intro hmem
    rcases List.mem_map.mp hmem with ⟨p, hp, rfl⟩
    exact hsub p hp
  · intro hmem
    rw [← lookupS_isSome]
    exact hcompl n hmem

theorem basePositions_keys (c : Circuit) (hc : CircuitWF c) :
    ((basePositions c).map Prod.fst).Perm c.all_nodes := by
  rw [basePositions, List.map_append, placeDffs_keys]
  refine (List.Perm.append (placeRegular_keys _ 0) (allDffsSorted_keys _)).trans ?_
  refine (group_members_perm c).trans ?_
  rw [dA_keys c hc]
  exact nodeDepths_keys_perm c hc

theorem basePositions_complete (c : Circuit) (hc : CircuitWF c) :
    ∀ n ∈ c.all_nodes, (lookupS n (basePositions c)).isSome := by
  intro n hn
  rw [lookupS_isSome]
  exact (basePositions_keys c hc).mem_iff.mpr hn

theorem layout_eq_base (c : Circuit) (hc : CircuitWF c) :
    layoutPositions c = basePositions c := by
  rw [layoutPositions, gNodes_eq c hc]
  exact addFallback_noop _ _ (basePositions_complete c hc)

/-- Classification of declared outputs is never `DFF` (Input and Output both
take priority). -/
theorem outputs_not_dff (c : Circuit) {o : String} (ho : o ∈ c.outputs) :
    get_gate_type c o ≠ "DFF" := by
  rw [get_gate_type]
  by_cases hi : o ∈ c.inputs
  · rw [if_pos hi]
    decide
  · rw [if_neg hi, if_pos ho]
    decide

/-- A node whose classification is not `DFF` resolves its position in the
regular part of the layout, with `x = layerDepth × X_UNIT + jitter`. -/
theorem layout_lookup_regular (c : Circuit) (hc : CircuitWF c) {n : String} {x y : ℚ}
    (hnd : get_gate_type c n ≠ "DFF")
    (h : lookupS n (layoutPositions c) = some (x, y)) :
    ∃ (d ctr : Nat), lookupS n (depthsAfterOverride c) = some d ∧
      x = (d : ℚ) * 5 + jitterX ctr := by
  rw [layout_eq_base c hc, basePositions] at h
  rcases hl : lookupS n (placeRegular (depthToNodes c) 0) with _ | v
  · exfalso
    rw [lookupS_append_none hl] at h
    have hkey : n ∈ (placeDffs c (allDffsSorted (depthToDffs c))).map Prod.fst := by
      rw [← lookupS_isSome, h]
      rfl
    rw [placeDffs_keys] at hkey
    have hmem := (allDffsSorted_keys (depthToDffs c)).mem_iff.mp hkey
    rcases groupMembers_mem.mp hmem with ⟨d, hpi⟩
    exact hnd ((depthToDffs_pairIn c d n).mp hpi).2
  · rw [lookupS_append_some hl] at h
    rw [h] at hl
    obtain ⟨d, ctr, hpi, hx⟩ := placeRegular_lookup _ 0 n x y hl
    refine ⟨d, ctr, ?_, hx⟩
    exact lookupS_eq_of_mem_nodup ((depthToNodes_pairIn c d n).mp hpi).1 (dA_keys_nodup c hc)

/-- A node classified `DFF` resolves its position in the flip-flop part of
the layout. -/
theorem layout_lookup_dff (c : Circuit) (hc : CircuitWF c) {n : String} {x y : ℚ}
    (hdff : get_gate_type c n = "DFF")
    (h : lookupS n (layoutPositions c) = some (x, y)) :
    lookupS n (placeDffs c (allDffsSorted (depthToDffs c))) = some (x, y) := by
  rw [layout_eq_base c hc, basePositions] at h
  rcases hl : lookupS n (placeRegular (depthToNodes c) 0) with _ | v
  · rwa [lookupS_append_none hl] at h
  · exfalso
    have hkey : n ∈ (placeRegular (depthToNodes c) 0).map Prod.fst := by
      rw [← lookupS_isSome, hl]
      rfl
    have hmem := (placeRegular_keys (depthToNodes c) 0).mem_iff.mp hkey
    rcases groupMembers_mem.mp hmem with ⟨d, hpi⟩
    exact ((depthToNodes_pairIn c d n).mp hpi).2 hdff

theorem jitterX_bounds (ctr : Nat) : -(4/5 : ℚ) ≤ jitterX ctr ∧ jitterX ctr ≤ 4/5 := by
  rw [jitterX]
  have h1 : (ctr % 5 : Nat) ≤ 4 := Nat.lt_succ_iff.mp (Nat.mod_lt ctr (by norm_num))
  have h2 : ((ctr % 5 : Nat) : ℚ) ≤ 4 := by exact_mod_cast h1
  have h3 : (0 : ℚ) ≤ ((ctr % 5 : Nat) : ℚ) := Nat.cast_nonneg _
  constructor <;> nlinarith

/-- **C6 (amended).** Layout is total: for every graph built from a
declaration list — isolated and never-declared nodes and the empty graph
included — the position map assigns exactly one position to every graph
node (its keys are a permutation of the graph node list, so the counts are
equal).  Every node is placed by the depth-layer or flip-flop placement,
because every node receives a depth; the fallback pass is a safety net that
adds nothing for such graphs. -/
theorem c6_layout_total (decls : List Decl) :
    ((layoutPositions (buildCircuit decls)).map Prod.fst).Perm (gNodes (buildCircuit decls)) ∧
    (layoutPositions (buildCircuit decls)).length = (gNodes (buildCircuit decls)).length ∧
    layoutPositions (buildCircuit decls) = basePositions (buildCircuit decls) := by
  have hc := buildCircuit_wf decls
  have hperm : ((layoutPositions (buildCircuit decls)).map Prod.fst).Perm
      (gNodes (buildCircuit decls)) := by
    rw [layout_eq_base _ hc, gNodes_eq _ hc]
    exact basePositions_keys _ hc
  refine ⟨hperm, ?_, layout_eq_base _ hc⟩
  have := hperm.length_eq
  rwa [List.length_map] at this

/-- **C7.** No two nodes classified as Flip-Flop receive the same
y-coordinate: flip-flops are placed in the reserved bottom region with a
strictly decreasing `y = yBottom - index × (2 × Y_UNIT)` along the
`(depth, identifier)`-sorted order, so distinct flip-flops land at distinct
indices and distinct y. -/
theorem c7_dff_unique_y (decls : List Decl) (n1 n2 : String) (p1 p2 : ℚ × ℚ)
    (hne : n1 ≠ n2)
    (h1 : get_gate_type (buildCircuit decls) n1 = "DFF")
    (h2 : get_gate_type (buildCircuit decls) n2 = "DFF")
    (hl1 : lookupS n1 (layoutPositions (buildCircuit decls)) = some p1)
    (hl2 : lookupS n2 (layoutPositions (buildCircuit decls)) = some p2) :
    p1.2 ≠ p2.2 := by
  have hc := buildCircuit_wf decls
  obtain ⟨x1, y1⟩ := p1
  obtain ⟨x2, y2⟩ := p2
  exact placeDffs_y_injective (layout_lookup_dff _ hc h1 hl1)
    (layout_lookup_dff _ hc h2 hl2) hne

/-- Witness for C7: the two flip-flops of `circuitW7` get y-coordinates
`-21/2` and `-33/2`. -/
theorem c7_dff_unique_y_witness :
    ("D1" : String) ≠ "D2" ∧
    get_gate_type circuitW7 "D1" = "DFF" ∧
    get_gate_type circuitW7 "D2" = "DFF" ∧
    lookupS "D1" (layoutPositions circuitW7) = some (1/2, -21/2) ∧
    lookupS "D2" (layoutPositions circuitW7) = some (2, -33/2) ∧
    (((1 : ℚ)/2, (-21 : ℚ)/2) : ℚ × ℚ).2 ≠ (((2 : ℚ), (-33 : ℚ)/2) : ℚ × ℚ).2 :=
  ⟨by decide, by decide, by decide,
    by with_unfolding_all decide, by with_unfolding_all decide,
    c7_dff_unique_y [.input "x", .dff "D1" "x", .dff "D2" "x"] "D1" "D2"
      (1/2, -21/2) (2, -33/2) (by decide) (by decide) (by decide)
      (by with_unfolding_all decide) (by with_unfolding_all decide)⟩

/-- **C4 (amended).** For every graph with at least one declared Output,
every Output node's x equals `(maxDepth after the override) × X_UNIT` plus
its deterministic jitter (bounded by `2 × node_x_offset = 4/5`), and this x
is strictly greater than the x of every node that is neither an Output nor
classified as a Flip-Flop.  (The unamended claim fails on both counts: the
jitter makes the equality inexact, and a flip-flop's larger x-jitter can
carry it to the right of an output — see the counterexample.) -/
theorem c4_output_layer (decls : List Decl) (o : String)
    (ho : o ∈ (buildCircuit decls).outputs) :
    ∃ x y : ℚ, lookupS o (layoutPositions (buildCircuit decls)) = some (x, y) ∧
      (∃ ctr : Nat, x = (maxDepthAfter (buildCircuit decls) : ℚ) * 5 + jitterX ctr) ∧
      (maxDepthAfter (buildCircuit decls) : ℚ) * 5 - 4/5 ≤ x ∧
      x ≤ (maxDepthAfter (buildCircuit decls) : ℚ) * 5 + 4/5 ∧
      ∀ (n : String) (xn yn : ℚ), n ∉ (buildCircuit decls).outputs →
        get_gate_type (buildCircuit decls) n ≠ "DFF" →
        lookupS n (layoutPositions (buildCircuit decls)) = some (xn, yn) → xn < x := by
  have hc := buildCircuit_wf decls
  have hout : (buildCircuit decls).outputs ≠ [] := List.ne_nil_of_mem ho
  have hoa : o ∈ (buildCircuit decls).all_nodes := hc.outputs_sub o ho
  have hsome : (lookupS o (layoutPositions (buildCircuit decls))).isSome := by
    rw [layout_eq_base _ hc]
    exact basePositions_complete _ hc o hoa
  rcases hL : lookupS o (layoutPositions (buildCircuit decls)) with _ | val
  · rw [hL] at hsome; simp at hsome
  · obtain ⟨x, y⟩ := val
    obtain ⟨d, ctr, hdA, hx⟩ := layout_lookup_regular _ hc (outputs_not_dff _ ho) hL
    rw [dA_lookup, if_pos ho] at hdA
    have hd : d = maxValues (nodeDepths (buildCircuit decls)) + 1 := by
      simpa using hdA.symm
    have hmd := maxDepthAfter_eq _ hc hout
    have hxeq : x = (maxDepthAfter (buildCircuit decls) : ℚ) * 5 + jitterX ctr := by
      rw [hx, hd, hmd]
    obtain ⟨hj1, hj2⟩ := jitterX_bounds ctr
    refine ⟨x, y, rfl, ⟨ctr, hxeq⟩, by rw [hxeq]; linarith, by rw [hxeq]; linarith, ?_⟩
    intro n xn yn hno hndff hln
    obtain ⟨dn', ctr', hdAn, hxn⟩ := layout_lookup_regular _ hc hndff hln
    rw [dA_lookup, if_neg hno] at hdAn
    have hb : dn' ≤ maxValues (nodeDepths (buildCircuit decls)) := by
      rw [maxValues]
      exact listMax_ge_of_mem (List.mem_map_of_mem Prod.snd (lookupS_mem hdAn))
    have hbq : (dn' : ℚ) ≤ (maxValues (nodeDepths (buildCircuit decls)) : ℚ) := by
      exact_mod_cast hb
    have hmdq : (maxDepthAfter (buildCircuit decls) : ℚ) =
        (maxValues (nodeDepths (buildCircuit decls)) : ℚ) + 1 := by
      rw [hmd]
      push_cast
      ring
    obtain ⟨hj1', hj2'⟩ := jitterX_bounds ctr'
    rw [hxn, hxeq, hmdq]
    linarith

/-- Witness for C4 (amended) at `circuitCE4` and its output `x`. -/
theorem c4_output_layer_witness :
    "x" ∈ circuitCE4.outputs ∧
    (∃ x y : ℚ, lookupS "x" (layoutPositions circuitCE4) = some (x, y) ∧
      (∃ ctr : Nat, x = (maxDepthAfter circuitCE4 : ℚ) * 5 + jitterX ctr) ∧
      (maxDepthAfter circuitCE4 : ℚ) * 5 - 4/5 ≤ x ∧
      x ≤ (maxDepthAfter circuitCE4 : ℚ) * 5 + 4/5 ∧
      ∀ (n : String) (xn yn : ℚ), n ∉ circuitCE4.outputs →
        get_gate_type circuitCE4 n ≠ "DFF" →
        lookupS n (layoutPositions circuitCE4) = some (xn, yn) → xn < x) :=
  ⟨by decide,
    c4_output_layer [.output "x", .dff "D1" "x", .dff "D2" "x", .dff "D3" "x",
      .dff "D4" "x", .dff "D5" "x", .dff "D6" "x", .dff "D7" "x"] "x" (by decide)⟩

/-- **C10 (amended).** A node declared both as an OUTPUT and by a DFF
definition, and not also declared as an INPUT, is classified Output (Output
takes priority over Flip-Flop; Input would take priority over both — see
the counterexample), it is placed among the regular per-layer nodes rather
than in the reserved flip-flop region, and every edge into it has its
flip-flop data-input flag false. -/
theorem c10_output_priority (decls : List Decl) (n : String)
    (ho : n ∈ (buildCircuit decls).outputs)
    (hdff : (lookupS n (buildCircuit decls).dffs).isSome)
    (hni : n ∉ (buildCircuit decls).inputs) :
    get_gate_type (buildCircuit decls) n = "OUTPUT" ∧
    n ∈ (placeRegular (depthToNodes (buildCircuit decls)) 0).map Prod.fst ∧
    n ∉ (placeDffs (buildCircuit decls)
      (allDffsSorted (depthToDffs (buildCircuit decls)))).map Prod.fst ∧
    edgeTargetIsDff (buildCircuit decls) n = false := by
  have hc := buildCircuit_wf decls
  have hcls : get_gate_type (buildCircuit decls) n = "OUTPUT" := by
    rw [get_gate_type, if_neg hni, if_pos ho]
  have hndff : get_gate_type (buildCircuit decls) n ≠ "DFF" := by
    rw [hcls]
    decide
  have hdA : lookupS n (depthsAfterOverride (buildCircuit decls)) =
      some (maxValues (nodeDepths (buildCircuit decls)) + 1) := by
    rw [dA_lookup, if_pos ho]
  have hpi : PairIn (depthToNodes (buildCircuit decls))
      (maxValues (nodeDepths (buildCircuit decls)) + 1) n :=
    (depthToNodes_pairIn _ _ _).mpr ⟨lookupS_mem hdA, hndff⟩
  refine ⟨hcls, ?_, ?_, ?_⟩
  · exact (placeRegular_keys _ 0).mem_iff.mpr (groupMembers_mem.mpr ⟨_, hpi⟩)
  · intro hmem
    rw [placeDffs_keys] at hmem
    rcases groupMembers_mem.mp ((allDffsSorted_keys _).mem_iff.mp hmem) with ⟨d, hpd⟩
    exact hndff ((depthToDffs_pairIn _ _ _).mp hpd).2
  · rw [edgeTargetIsDff, hcls]
    decide

/-- Witness for C10 (amended) at `circuitW10` and its node `o`. -/
theorem c10_output_priority_witness :
    ("o" ∈ circuitW10.outputs ∧ (lookupS "o" circuitW10.dffs).isSome ∧
      "o" ∉ circuitW10.inputs) ∧
    (get_gate_type circuitW10 "o" = "OUTPUT" ∧
    "o" ∈ (placeRegular (depthToNodes circuitW10) 0).map Prod.fst ∧
    "o" ∉ (placeDffs circuitW10 (allDffsSorted (depthToDffs circuitW10))).map Prod.fst ∧
    edgeTargetIsDff circuitW10 "o" = false) :=
  ⟨⟨by decide, by decide, by decide⟩,
    c10_output_priority [.output "o", .dff "o" "b"] "o" (by decide) (by decide) (by decide)⟩

/-! ## Channel clearance -/

theorem pyAbs_nonneg (q : ℚ) : 0 ≤ pyAbs q := by
  rw [pyAbs]
  by_cases h : q < 0
  · rw [if_pos h]; linarith
  · rw [if_neg h]; linarith

theorem nodesInPath_mem {pos : Pos} {u v : String} {xs xe : ℚ} {y' : ℚ} :
    y' ∈ nodesInPath pos u v xs xe ↔
      ∃ p ∈ pos, (xs < p.2.1 ∧ p.2.1 < xe ∧ p.1 ≠ u ∧ p.1 ≠ v) ∧ p.2.2 = y' := by
  have hgen : ∀ (l : Pos) (init : List ℚ),
      y' ∈ l.foldl (fun acc p =>
        if xs < p.2.1 ∧ p.2.1 < xe ∧ p.1 ≠ u ∧ p.1 ≠ v then acc ++ [p.2.2] else acc) init ↔
        y' ∈ init ∨
          ∃ p ∈ l, (xs < p.2.1 ∧ p.2.1 < xe ∧ p.1 ≠ u ∧ p.1 ≠ v) ∧ p.2.2 = y' := by
    intro l
    induction l with
    | nil => intro init; simp
    | cons q rest ih =>
      intro init
      rw [List.foldl_cons]
      by_cases hq : xs < q.2.1 ∧ q.2.1 < xe ∧ q.1 ≠ u ∧ q.1 ≠ v
      · rw [if_pos hq, ih]
        constructor
        · rintro (h | ⟨p, hp, hc2, he⟩)
          · rcases List.mem_append.mp h with h1 | h1
            · exact Or.inl h1
            · rw [List.mem_singleton] at h1
              exact Or.inr ⟨q, List.mem_cons_self _ _, hq, h1.symm⟩
          · exact Or.inr ⟨p, List.mem_cons_of_mem _ hp, hc2, he⟩
        · rintro (h | ⟨p, hp, hc2, he⟩)
          · exact Or.inl (List.mem_append.mpr (Or.inl h))
          · rcases List.mem_cons.mp hp with rfl | hp'
            · refine Or.inl (List.mem_append.mpr (Or.inr ?_))
              rw [List.mem_singleton]
              exact he.symm
            · exact Or.inr ⟨p, hp', hc2, he⟩
      · rw [if_neg hq, ih]
        constructor
        · rintro (h | ⟨p, hp, hc2, he⟩)
          · exact Or.inl h
          · exact Or.inr ⟨p, List.mem_cons_of_mem _ hp, hc2, he⟩
        · rintro (h | ⟨p, hp, hc2, he⟩)
          · exact Or.inl h
          · rcases List.mem_cons.mp hp with rfl | hp'
            · exact absurd hc2 hq
            · exact Or.inr ⟨p, hp', hc2, he⟩
  rw [nodesInPath]
  refine (hgen pos []).trans ?_
  simp

theorem le_foldl_max (xs : List ℚ) : ∀ x : ℚ, x ≤ xs.foldl max x := by
  induction xs with
  | nil => intro x; simp
  | cons y ys ih => intro x; rw [List.foldl_cons]; exact le_trans (le_max_left x y) (ih _)

theorem mem_le_foldl_max (xs : List ℚ) : ∀ (x a : ℚ), a ∈ xs → a ≤ xs.foldl max x := by
  induction xs with
  | nil => intro x a h; simp at h
  | cons y ys ih =>
    intro x a h
    rw [List.foldl_cons]
    rcases List.mem_cons.mp h with rfl | h'
    · exact le_trans (le_max_right x a) (le_foldl_max ys _)
    · exact ih _ a h'

theorem listMaxQ_ge {l : List ℚ} {a : ℚ} (h : a ∈ l) : a ≤ listMaxQ l := by
  rcases l with _ | ⟨x, xs⟩
  · simp at h
  · rw [listMaxQ]
    rcases List.mem_cons.mp h with rfl | h'
    · exact le_foldl_max xs a
    · exact mem_le_foldl_max xs x a h'

theorem foldl_min_le (xs : List ℚ) : ∀ x : ℚ, xs.foldl min x ≤ x := by
  induction xs with
  | nil => intro x; simp
  | cons y ys ih => intro x; rw [List.foldl_cons]; exact le_trans (ih _) (min_le_left x y)

theorem foldl_min_le_mem (xs : List ℚ) : ∀ (x a : ℚ), a ∈ xs → xs.foldl min x ≤ a := by
  induction xs with
  | nil => intro x a h; simp at h
  | cons y ys ih =>
    intro x a h
    rw [List.foldl_cons]
    rcases List.mem_cons.mp h with rfl | h'
    · exact le_trans (foldl_min_le ys _) (min_le_right x a)
    · exact ih _ a h'

theorem listMinQ_le {l : List ℚ} {a : ℚ} (h : a ∈ l) : listMinQ l ≤ a := by
  rcases l with _ | ⟨x, xs⟩
  · simp at h
  · rw [listMinQ]
    rcases List.mem_cons.mp h with rfl | h'
    · exact foldl_min_le xs a
    · exact foldl_min_le_mem xs x a h'

/-- **C5 (amended).** The routing-channel y of a multi-segment edge clears —
by at least the margin — every node the code collects as intervening, namely
every position-map entry other than the endpoints whose x satisfies
`x_start < x < x_end` in source-to-target order (for a right-to-left edge
this set is empty, so nodes between the two x-coordinates are not avoided —
see the counterexample): going down (`y_start < y_end`) the channel is at
least the margin above each such node, going up at least the margin below;
with no intervening node it clears the endpoint y-span by the margin. -/
theorem c5_channel_clearance (pos : Pos) (u v : String) (x0 y0 x1 y1 g : ℚ) :
    (∀ p ∈ pos, x0 < p.2.1 → p.2.1 < x1 → p.1 ≠ u → p.1 ≠ v →
      (y0 < y1 → p.2.2 + nodeMargin ≤ routeChannelY pos u v x0 y0 x1 y1 g) ∧
      (¬ y0 < y1 → routeChannelY pos u v x0 y0 x1 y1 g ≤ p.2.2 - nodeMargin)) ∧
    (nodesInPath pos u v x0 x1 = [] →
      (y0 < y1 → max y0 y1 + nodeMargin ≤ routeChannelY pos u v x0 y0 x1 y1 g) ∧
      (¬ y0 < y1 → routeChannelY pos u v x0 y0 x1 y1 g ≤ min y0 y1 - nodeMargin)) := by
  have habs := pyAbs_nonneg g
  constructor
  · intro p hp h1 h2 h3 h4
    have hmem : p.2.2 ∈ nodesInPath pos u v x0 x1 :=
      nodesInPath_mem.mpr ⟨p, hp, ⟨h1, h2, h3, h4⟩, rfl⟩
    rcases hnip : nodesInPath pos u v x0 x1 with _ | ⟨z, zs⟩
    · rw [hnip] at hmem
      exact absurd hmem (List.not_mem_nil _)
    · rw [hnip] at hmem
      constructor
      · intro hdir
        simp only [routeChannelY, hnip]
        rw [if_pos hdir]
        have := listMaxQ_ge hmem
        linarith
      · intro hdir
        simp only [routeChannelY, hnip]
        rw [if_neg hdir]
        have := listMinQ_le hmem
        linarith
  · intro hnip
    constructor
    · intro hdir
      simp only [routeChannelY, hnip]
      rw [if_pos hdir]
      linarith
    · intro hdir
      simp only [routeChannelY, hnip]
      rw [if_neg hdir]
      linarith

/-- **C9 (counterexample).** The line `# Path 0 (delay: +)` is malformed —
its delay group `+` matches the header pattern `[0-9.eE+-]+` but `float`
rejects it — and parsing a report containing it is fatal (an uncaught
error), contradicting "malformed lines are silently ignored and never
fatal". -/
theorem c9_counterexample :
    load_paths_from_file "report.txt" (some ["# Path 0 (delay: +)"]) =
      .error .uncaughtValueError ∧
    headerMatch "# Path 0 (delay: +)" = some ("0", "+") ∧
    pyFloat? "+" = none := by
  exact ⟨by decide, by decide, by decide⟩

end VB
